import Mathlib

/-!
Verification of the poise-android native audio pipeline (vad.cpp,
resampler.cpp, poise_processor.cpp, stft.cpp) against its specification.
The C++ code is shallowly embedded: single- and double-precision values are
modelled as exact reals (or rationals where the code is purely arithmetic),
C++ int counters as unbounded integers, and mutation as explicit state
passing.
-/

namespace Poise

/-! ## VoiceActivityDetector (vad.cpp) -/

/-- VADState mirrors the member fields of VoiceActivityDetector.  The C++ int
counters are modelled as unbounded integers. -/
structure VADState where
  thresholdLinear : ℝ
  hangFrames : ℤ
  framesSinceActive : ℤ
  totalFrames : ℤ
  activeFrames : ℤ
  bypassedFrames : ℤ

/-- realTrunc models a C++ static_cast from a floating value to int, which
truncates toward zero. -/
noncomputable def realTrunc (x : ℝ) : ℤ := if 0 ≤ x then ⌊x⌋ else -⌊-x⌋

/-- DEFAULT_FRAME_SIZE constant from vad.cpp. -/
def DEFAULT_FRAME_SIZE : ℕ := 480

/-- mkVAD embeds the VoiceActivityDetector constructor (vad.cpp lines 20-27):
thresholdLinear is 10 to the power thresholdDb / 20, hangFrames is the
truncated hangTimeMs * sampleRate / 1000 / DEFAULT_FRAME_SIZE, and
framesSinceActive starts at hangFrames + 1. -/
noncomputable def mkVAD (thresholdDb hangTimeMs : ℝ) (sampleRate : ℤ) : VADState :=
  { thresholdLinear := (10 : ℝ) ^ (thresholdDb / 20)
    hangFrames := realTrunc (hangTimeMs * (sampleRate : ℝ) / 1000 / (DEFAULT_FRAME_SIZE : ℝ))
    framesSinceActive :=
      realTrunc (hangTimeMs * (sampleRate : ℝ) / 1000 / (DEFAULT_FRAME_SIZE : ℝ)) + 1
    totalFrames := 0
    activeFrames := 0
    bypassedFrames := 0 }

/-- rmsEnergy embeds the RMS computation at the top of isSpeech (vad.cpp
lines 32-37): the square root of the mean of the squared samples. -/
noncomputable def rmsEnergy (audio : List ℝ) : ℝ :=
  Real.sqrt ((audio.map (fun s => s * s)).sum / (audio.length : ℝ))

/-- isSpeech embeds VoiceActivityDetector::isSpeech (vad.cpp lines 29-57),
returning the Bool result together with the updated detector state. -/
noncomputable def isSpeech (s : VADState) (audio : List ℝ) : Bool × VADState :=
  let s1 := { s with totalFrames := s.totalFrames + 1 }
  let rms := rmsEnergy audio
  if rms > s1.thresholdLinear then
    (true, { s1 with framesSinceActive := 0, activeFrames := s1.activeFrames + 1 })
  else
    let s2 := { s1 with framesSinceActive := s1.framesSinceActive + 1 }
    if s2.framesSinceActive < s2.hangFrames then
      (true, { s2 with activeFrames := s2.activeFrames + 1 })
    else
      (false, { s2 with bypassedFrames := s2.bypassedFrames + 1 })

/-- vadRun feeds a list of frames through isSpeech in order, collecting the
Boolean classifications and the final state. -/
noncomputable def vadRun (s : VADState) : List (List ℝ) → List Bool × VADState
  | [] => ([], s)
  | f :: rest =>
    let r := isSpeech s f
    let rr := vadRun r.2 rest
    (r.1 :: rr.1, rr.2)

/-- vadOutputs is the list of classifications produced by a run. -/
noncomputable def vadOutputs (s : VADState) (frames : List (List ℝ)) : List Bool :=
  (vadRun s frames).1

lemma vadOutputs_cons (s : VADState) (f : List ℝ) (rest : List (List ℝ)) :
    vadOutputs s (f :: rest) = (isSpeech s f).1 :: vadOutputs (isSpeech s f).2 rest := by
  simp [vadOutputs, vadRun]

lemma isSpeech_active (s : VADState) (audio : List ℝ)
    (h : rmsEnergy audio > s.thresholdLinear) :
    isSpeech s audio =
      (true, { s with totalFrames := s.totalFrames + 1, framesSinceActive := 0,
                      activeFrames := s.activeFrames + 1 }) := by
  simp [isSpeech, h]

lemma isSpeech_hold (s : VADState) (audio : List ℝ)
    (h : ¬ rmsEnergy audio > s.thresholdLinear)
    (h2 : s.framesSinceActive + 1 < s.hangFrames) :
    isSpeech s audio =
      (true, { s with totalFrames := s.totalFrames + 1,
                      framesSinceActive := s.framesSinceActive + 1,
                      activeFrames := s.activeFrames + 1 }) := by
  simp [isSpeech, h, h2]

lemma isSpeech_bypass (s : VADState) (audio : List ℝ)
    (h : ¬ rmsEnergy audio > s.thresholdLinear)
    (h2 : ¬ s.framesSinceActive + 1 < s.hangFrames) :
    isSpeech s audio =
      (false, { s with totalFrames := s.totalFrames + 1,
                       framesSinceActive := s.framesSinceActive + 1,
                       bypassedFrames := s.bypassedFrames + 1 }) := by
  simp [isSpeech, h, h2]

lemma isSpeech_hangFrames (s : VADState) (audio : List ℝ) :
    (isSpeech s audio).2.hangFrames = s.hangFrames := by
  by_cases h : rmsEnergy audio > s.thresholdLinear
  · simp [isSpeech_active s audio h]
  · by_cases h2 : s.framesSinceActive + 1 < s.hangFrames
    · simp [isSpeech_hold s audio h h2]
    · simp [isSpeech_bypass s audio h h2]

lemma isSpeech_thresholdLinear (s : VADState) (audio : List ℝ) :
    (isSpeech s audio).2.thresholdLinear = s.thresholdLinear := by
  by_cases h : rmsEnergy audio > s.thresholdLinear
  · simp [isSpeech_active s audio h]
  · by_cases h2 : s.framesSinceActive + 1 < s.hangFrames
    · simp [isSpeech_hold s audio h h2]
    · simp [isSpeech_bypass s audio h h2]

lemma isSpeech_fsa_le (s : VADState) (audio : List ℝ)
    (hs : 0 ≤ s.framesSinceActive) :
    (isSpeech s audio).2.framesSinceActive ≤ s.framesSinceActive + 1 := by
  by_cases h : rmsEnergy audio > s.thresholdLinear
  · simp [isSpeech_active s audio h]
    omega
  · by_cases h2 : s.framesSinceActive + 1 < s.hangFrames
    · simp [isSpeech_hold s audio h h2]
    · simp [isSpeech_bypass s audio h h2]

lemma isSpeech_fsa_nonneg (s : VADState) (audio : List ℝ)
    (hs : 0 ≤ s.framesSinceActive) :
    0 ≤ (isSpeech s audio).2.framesSinceActive := by
  by_cases h : rmsEnergy audio > s.thresholdLinear
  · simp [isSpeech_active s audio h]
  · by_cases h2 : s.framesSinceActive + 1 < s.hangFrames
    · simp [isSpeech_hold s audio h h2]
      omega
    · simp [isSpeech_bypass s audio h h2]
      omega

/-- vadOutputs_hold: from any state with a nonnegative hang counter, every call
that happens while the counter is still guaranteed below hangFrames returns
true, whatever the frames are. -/
lemma vadOutputs_hold (frames : List (List ℝ)) :
    ∀ (s : VADState), 0 ≤ s.framesSinceActive →
      ∀ k : ℕ, k < frames.length →
        (s.framesSinceActive + (k : ℤ) + 1 < s.hangFrames) →
        (vadOutputs s frames).getD k false = true := by
  induction frames with
  | nil => intro s _ k hk; simp at hk
  | cons f rest ih =>
    intro s hs k hk hlt
    rw [vadOutputs_cons]
    cases k with
    | zero =>
      by_cases h : rmsEnergy f > s.thresholdLinear
      · simp [isSpeech_active s f h]
      · have h2 : s.framesSinceActive + 1 < s.hangFrames := by
          simpa using hlt
        simp [isSpeech_hold s f h h2]
    | succ k2 =>
      have hlen : k2 < rest.length := by simpa using hk
      have hfsa := isSpeech_fsa_le s f hs
      have hfsap := isSpeech_fsa_nonneg s f hs
      have hhang := isSpeech_hangFrames s f
      simp only [List.getD_cons_succ]
      apply ih _ hfsap k2 hlen
      rw [hhang]
      push_cast at hlt ⊢
      omega

/-- vadRun preserves the hangFrames field. -/
lemma vadRun_hangFrames (frames : List (List ℝ)) :
    ∀ s : VADState, (vadRun s frames).2.hangFrames = s.hangFrames := by
  induction frames with
  | nil => intro s; simp [vadRun]
  | cons f rest ih => intro s; simp [vadRun, ih, isSpeech_hangFrames]

/-- vadRun preserves the thresholdLinear field. -/
lemma vadRun_thresholdLinear (frames : List (List ℝ)) :
    ∀ s : VADState, (vadRun s frames).2.thresholdLinear = s.thresholdLinear := by
  induction frames with
  | nil => intro s; simp [vadRun]
  | cons f rest ih => intro s; simp [vadRun, ih, isSpeech_thresholdLinear]

lemma rmsEnergy_single_one : rmsEnergy [(1 : ℝ)] = 1 := by
  simp [rmsEnergy]

lemma rmsEnergy_single_zero : rmsEnergy [(0 : ℝ)] = 0 := by
  simp [rmsEnergy]

/-- vadOutputs_zeroRun: feeding m frames equal to [0] into a detector with a
nonnegative linear threshold, the k-th output is true exactly when the hang
counter has not yet expired. -/
lemma vadOutputs_zeroRun (m : ℕ) :
    ∀ (s : VADState) (k : ℕ), 0 ≤ s.thresholdLinear → k < m →
      (vadOutputs s (List.replicate m [(0 : ℝ)])).getD k false
        = decide (s.framesSinceActive + (k : ℤ) + 1 < s.hangFrames) := by
  induction m with
  | zero => intro s k _ hk; omega
  | succ m2 ih =>
    intro s k hthr hk
    have hm : ¬ rmsEnergy [(0 : ℝ)] > s.thresholdLinear := by
      rw [rmsEnergy_single_zero]; exact not_lt.mpr hthr
    rw [List.replicate_succ, vadOutputs_cons]
    cases k with
    | zero =>
      by_cases h2 : s.framesSinceActive + 1 < s.hangFrames
      · simp [isSpeech_hold s _ hm h2, h2]
      · simp [isSpeech_bypass s _ hm h2, h2]
    | succ k2 =>
      have hlen : k2 < m2 := by omega
      by_cases h2 : s.framesSinceActive + 1 < s.hangFrames
      · rw [isSpeech_hold s _ hm h2]
        simp only [List.getD_cons_succ]
        rw [ih _ k2 (by simpa using hthr) hlen]
        rw [decide_eq_decide]
        push_cast
        omega
      · rw [isSpeech_bypass s _ hm h2]
        simp only [List.getD_cons_succ]
        rw [ih _ k2 (by simpa using hthr) hlen]
        rw [decide_eq_decide]
        push_cast
        omega

lemma mkVAD_thresholdLinear (db ht : ℝ) (sr : ℤ) :
    (mkVAD db ht sr).thresholdLinear = (10 : ℝ) ^ (db / 20) := rfl

lemma mkVAD_hangFrames (db ht : ℝ) (sr : ℤ) :
    (mkVAD db ht sr).hangFrames
      = realTrunc (ht * (sr : ℝ) / 1000 / (DEFAULT_FRAME_SIZE : ℝ)) := rfl

lemma mkVAD_framesSinceActive (db ht : ℝ) (sr : ℤ) :
    (mkVAD db ht sr).framesSinceActive = (mkVAD db ht sr).hangFrames + 1 := rfl

lemma mkVAD_default_thresholdLinear :
    (mkVAD (-40) 300 48000).thresholdLinear = 1 / 100 := by
  rw [mkVAD_thresholdLinear]
  have h : ((-40 : ℝ) / 20) = ((-2 : ℤ) : ℝ) := by norm_num
  rw [h, Real.rpow_intCast]
  norm_num

lemma mkVAD_default_hangFrames : (mkVAD (-40) 300 48000).hangFrames = 30 := by
  rw [mkVAD_hangFrames]
  have h : (300 * ((48000 : ℤ) : ℝ) / 1000 / ((DEFAULT_FRAME_SIZE : ℕ) : ℝ))
      = ((30 : ℤ) : ℝ) := by
    norm_num [DEFAULT_FRAME_SIZE]
  rw [realTrunc, h]
  norm_num

/-- vad_hold_after_active: shared helper for the hang-time claims.  From any
state, a call on an energy-active frame returns true and resets the hang
counter to zero, after which the following hangFrames - 1 calls return true
whatever their frames contain. -/
lemma vad_hold_after_active (s : VADState) (f : List ℝ) (rest : List (List ℝ))
    (hf : rmsEnergy f > s.thresholdLinear) (i : ℕ) (h1 : 1 ≤ i)
    (h2 : (i : ℤ) ≤ s.hangFrames - 1) (h3 : i ≤ rest.length) :
    (vadOutputs s (f :: rest)).getD 0 false = true ∧
    (vadOutputs s (f :: rest)).getD i false = true := by
  rw [vadOutputs_cons, isSpeech_active s f hf]
  refine ⟨by simp, ?_⟩
  obtain ⟨i2, rfl⟩ : ∃ i2, i = i2 + 1 := ⟨i - 1, by omega⟩
  simp only [List.getD_cons_succ]
  apply vadOutputs_hold rest _ (by simp) i2 (by omega)
  simp only
  push_cast at h2 ⊢
  omega

/-- claimC3Statement renders claim C3 exactly as frozen: for every detector
state and every sequence of frames, once a call to isSpeech returns true, the
next hangFrames - 1 calls also return true regardless of the energy of those
frames. -/
def claimC3Statement : Prop :=
  ∀ (s : VADState) (frames : List (List ℝ)) (j i : ℕ),
    1 ≤ i → (i : ℤ) ≤ s.hangFrames - 1 → j + i < frames.length →
    (vadOutputs s frames).getD j false = true →
    (vadOutputs s frames).getD (j + i) false = true

/-- c3CexState: a detector state (hangFrames 30, hang counter 0, threshold
1/100) as found immediately after an energy-active frame. -/
noncomputable def c3CexState : VADState := ⟨1 / 100, 30, 0, 1, 1, 0⟩

/-- C3 counterexample: claim C3 as stated is false.  From a post-active state
with hangFrames 30, the first silent call returns true (hang hold), yet only
28 further calls are held: the call 29 positions later returns false, although
the claim promises hangFrames - 1 = 29 further true calls after any true
call. -/
theorem C3_counterexample : ¬ claimC3Statement := by
  intro hclaim
  have hthr : (0 : ℝ) ≤ c3CexState.thresholdLinear := by norm_num [c3CexState]
  have h0 : (vadOutputs c3CexState (List.replicate 30 [(0 : ℝ)])).getD 0 false = true := by
    rw [vadOutputs_zeroRun 30 c3CexState 0 hthr (by norm_num)]
    simp [c3CexState]
  have h29 := hclaim c3CexState (List.replicate 30 [(0 : ℝ)]) 0 29 (by norm_num)
    (by simp [c3CexState]) (by simp) h0
  rw [vadOutputs_zeroRun 30 c3CexState 29 hthr (by norm_num)] at h29
  simp [c3CexState] at h29

/-- C3 (amended): for every VoiceActivityDetector state and sequence of
frames, once a call to isSpeech classifies a frame as energy-active (its RMS
exceeds the linear threshold; the call returns true), the next hangFrames - 1
calls to isSpeech also return true regardless of the energy of those
frames. -/
theorem C3_hang_hold (s : VADState) (f : List ℝ) (rest : List (List ℝ))
    (hf : rmsEnergy f > s.thresholdLinear) (i : ℕ) (h1 : 1 ≤ i)
    (h2 : (i : ℤ) ≤ s.hangFrames - 1) (h3 : i ≤ rest.length) :
    (vadOutputs s (f :: rest)).getD 0 false = true ∧
    (vadOutputs s (f :: rest)).getD i false = true :=
  vad_hold_after_active s f rest hf i h1 h2 h3

/-- C3 witness: a concrete instantiation of the amended hang-hold theorem
(hangFrames 2, one active frame, one silent frame). -/
theorem C3_hang_hold_witness :
    (vadOutputs ⟨1 / 100, 2, 5, 0, 0, 0⟩ ([(1 : ℝ)] :: [[(0 : ℝ)]])).getD 0 false = true ∧
    (vadOutputs ⟨1 / 100, 2, 5, 0, 0, 0⟩ ([(1 : ℝ)] :: [[(0 : ℝ)]])).getD 1 false = true :=
  C3_hang_hold ⟨1 / 100, 2, 5, 0, 0, 0⟩ [(1 : ℝ)] [[(0 : ℝ)]]
    (by rw [rmsEnergy_single_one]; norm_num) 1 (by norm_num) (by norm_num) (by norm_num)

/-- claimC4Statement renders claim C4 as frozen: a detector constructed by
mkVAD keeps classifying frames as speech for hangFrames subsequent
below-threshold frames after an energy-active frame. -/
def claimC4Statement : Prop :=
  ∀ (thresholdDb hangTimeMs : ℝ) (sampleRate : ℤ) (pre : List (List ℝ))
    (f : List ℝ) (rest : List (List ℝ)) (s : VADState),
    s = (vadRun (mkVAD thresholdDb hangTimeMs sampleRate) pre).2 →
    rmsEnergy f > s.thresholdLinear →
    (∀ g ∈ rest, ¬ rmsEnergy g > s.thresholdLinear) →
    ∀ i : ℕ, 1 ≤ i → (i : ℤ) ≤ s.hangFrames → i ≤ rest.length →
      (vadOutputs s (f :: rest)).getD i false = true

/-- C4 counterexample: with the default parameters (threshold -40 dB, hang
time 300 ms, 48 kHz) giving hangFrames = 30, an active frame followed by 30
silent frames yields false on the 30th subsequent call: the hold lasts only
hangFrames - 1 = 29 frames, not hangFrames = 30 as claimed. -/
theorem C4_counterexample : ¬ claimC4Statement := by
  intro hclaim
  have hthr := mkVAD_default_thresholdLinear
  have hhang := mkVAD_default_hangFrames
  have h := hclaim (-40) 300 48000 [] [(1 : ℝ)] (List.replicate 30 [(0 : ℝ)])
    (mkVAD (-40) 300 48000) rfl
    (by rw [rmsEnergy_single_one, hthr]; norm_num)
    (by
      intro g hg
      rw [List.eq_of_mem_replicate hg, rmsEnergy_single_zero, hthr]
      norm_num)
    30 (by norm_num) (by rw [hhang]; norm_num) (by simp)
  rw [vadOutputs_cons,
    isSpeech_active _ _ (by rw [rmsEnergy_single_one, hthr]; norm_num)] at h
  have h30 : (30 : ℕ) = 29 + 1 := by norm_num
  rw [h30, List.getD_cons_succ] at h
  rw [vadOutputs_zeroRun 30 _ 29 (by simp [hthr]) (by norm_num)] at h
  simp [hhang] at h

/-- C4 (amended): after an energy-active frame, a detector constructed by
mkVAD keeps classifying frames as speech for hangFrames - 1 subsequent
below-threshold frames, where hangFrames is the truncation of
hangTimeMs * sampleRate / 1000 / frameSize. -/
theorem C4_hang_duration (thresholdDb hangTimeMs : ℝ) (sampleRate : ℤ)
    (pre : List (List ℝ)) (f : List ℝ) (rest : List (List ℝ)) (s : VADState)
    (hs : s = (vadRun (mkVAD thresholdDb hangTimeMs sampleRate) pre).2)
    (hf : rmsEnergy f > s.thresholdLinear)
    (hrest : ∀ g ∈ rest, ¬ rmsEnergy g > s.thresholdLinear)
    (i : ℕ) (h1 : 1 ≤ i) (h2 : (i : ℤ) ≤ s.hangFrames - 1) (h3 : i ≤ rest.length) :
    s.hangFrames = realTrunc (hangTimeMs * (sampleRate : ℝ) / 1000 / (DEFAULT_FRAME_SIZE : ℝ)) ∧
    (vadOutputs s (f :: rest)).getD i false = true := by
  constructor
  · rw [hs, vadRun_hangFrames, mkVAD_hangFrames]
  · exact (vad_hold_after_active s f rest hf i h1 h2 h3).2

/-- C4 witness: the amended hang-duration theorem at the default
configuration, with one active and one silent frame. -/
theorem C4_hang_duration_witness :
    (mkVAD (-40) 300 48000).hangFrames
      = realTrunc (300 * ((48000 : ℤ) : ℝ) / 1000 / (DEFAULT_FRAME_SIZE : ℝ)) ∧
    (vadOutputs (mkVAD (-40) 300 48000) ([(1 : ℝ)] :: [[(0 : ℝ)]])).getD 1 false = true :=
  C4_hang_duration (-40) 300 48000 [] [(1 : ℝ)] [[(0 : ℝ)]] (mkVAD (-40) 300 48000) rfl
    (by rw [rmsEnergy_single_one, mkVAD_default_thresholdLinear]; norm_num)
    (by
      intro g hg
      simp only [List.mem_singleton] at hg
      rw [hg, rmsEnergy_single_zero, mkVAD_default_thresholdLinear]
      norm_num)
    1 (by norm_num) (by rw [mkVAD_default_hangFrames]; norm_num) (by norm_num)

/-- VADReachable: the detector states reachable from the default constructor
(threshold -40 dB, 300 ms hang, 48 kHz) through isSpeech calls. -/
inductive VADReachable : VADState → Prop
  | init : VADReachable (mkVAD (-40) 300 48000)
  | step (s : VADState) (f : List ℝ) : VADReachable s → VADReachable (isSpeech s f).2

/-- claimC5Statement renders claim C5 as frozen: for every reachable detector
state, an all-zero (silent) frame makes isSpeech return false and increments
the bypassed counter by exactly one. -/
def claimC5Statement : Prop :=
  ∀ s : VADState, VADReachable s → ∀ frame : List ℝ, (∀ x ∈ frame, x = 0) →
    (isSpeech s frame).1 = false ∧
    (isSpeech s frame).2.bypassedFrames = s.bypassedFrames + 1

lemma vadReachable_thresholdLinear (s : VADState) (h : VADReachable s) :
    s.thresholdLinear = (10 : ℝ) ^ ((-40 : ℝ) / 20) := by
  induction h with
  | init => rfl
  | step s2 f _h2 ih => rw [isSpeech_thresholdLinear, ih]

/-- C5 counterexample: claim C5 as stated is false.  The state reached after
one energy-active frame is reachable, yet a silent frame fed there is still
classified as speech by the hang hold, and bypassed is not incremented. -/
theorem C5_counterexample : ¬ claimC5Statement := by
  intro hclaim
  have hreach : VADReachable (isSpeech (mkVAD (-40) 300 48000) [(1 : ℝ)]).2 :=
    VADReachable.step _ _ VADReachable.init
  have h := hclaim _ hreach [(0 : ℝ)] (by simp)
  have hA : rmsEnergy [(1 : ℝ)] > (mkVAD (-40) 300 48000).thresholdLinear := by
    rw [rmsEnergy_single_one, mkVAD_default_thresholdLinear]; norm_num
  have hB : ¬ rmsEnergy [(0 : ℝ)]
      > (isSpeech (mkVAD (-40) 300 48000) [(1 : ℝ)]).2.thresholdLinear := by
    rw [rmsEnergy_single_zero, isSpeech_thresholdLinear, mkVAD_default_thresholdLinear]
    norm_num
  have hC : (isSpeech (mkVAD (-40) 300 48000) [(1 : ℝ)]).2.framesSinceActive + 1
      < (isSpeech (mkVAD (-40) 300 48000) [(1 : ℝ)]).2.hangFrames := by
    rw [isSpeech_active _ _ hA]
    simp [mkVAD_default_hangFrames]
  rw [isSpeech_hold _ _ hB hC] at h
  simp at h

/-- C5 (amended): for every reachable detector state whose hang window has
expired (hangFrames <= framesSinceActive + 1), feeding an all-zero frame
(RMS exactly 0, hence inactive) makes isSpeech return false, increments the
bypassed counter by exactly one, and advances the hang counter by one. -/
theorem C5_silence_bypass (s : VADState) (hreach : VADReachable s)
    (hexp : s.hangFrames ≤ s.framesSinceActive + 1) (frame : List ℝ)
    (hz : ∀ x ∈ frame, x = 0) :
    (isSpeech s frame).1 = false ∧
    (isSpeech s frame).2.bypassedFrames = s.bypassedFrames + 1 ∧
    (isSpeech s frame).2.framesSinceActive = s.framesSinceActive + 1 := by
  have hthr : 0 < s.thresholdLinear := by
    rw [vadReachable_thresholdLinear s hreach]
    exact Real.rpow_pos_of_pos (by norm_num) _
  have hrms : rmsEnergy frame = 0 := by
    have hsum : (frame.map (fun v => v * v)).sum = 0 := by
      apply List.sum_eq_zero
      intro x hx
      obtain ⟨y, hy, rfl⟩ := List.mem_map.mp hx
      rw [hz y hy]; ring
    rw [rmsEnergy, hsum, zero_div, Real.sqrt_zero]
  have hact : ¬ rmsEnergy frame > s.thresholdLinear := by
    rw [hrms]; exact not_lt.mpr (le_of_lt hthr)
  rw [isSpeech_bypass s frame hact (by omega)]
  simp

/-- C5 witness: the amended silence-bypass theorem at the freshly constructed
default detector fed a single-sample zero frame. -/
theorem C5_silence_bypass_witness :
    (isSpeech (mkVAD (-40) 300 48000) [(0 : ℝ)]).1 = false ∧
    (isSpeech (mkVAD (-40) 300 48000) [(0 : ℝ)]).2.bypassedFrames
      = (mkVAD (-40) 300 48000).bypassedFrames + 1 ∧
    (isSpeech (mkVAD (-40) 300 48000) [(0 : ℝ)]).2.framesSinceActive
      = (mkVAD (-40) 300 48000).framesSinceActive + 1 :=
  C5_silence_bypass (mkVAD (-40) 300 48000) VADReachable.init
    (by rw [mkVAD_framesSinceActive]; omega) [(0 : ℝ)] (by simp)

/-! ## StreamingResampler (resampler.cpp) -/

/-- qTrunc models a C++ static_cast from double to int (truncation toward
zero), on the exact rational model of the double values. -/
def qTrunc (x : ℚ) : ℤ := if 0 ≤ x then ⌊x⌋ else -⌊-x⌋

/-- qFmod models std::fmod on the exact rational model. -/
def qFmod (x y : ℚ) : ℚ := x - (qTrunc (x / y)) * y

lemma qTrunc_of_nonneg (x : ℚ) (hx : 0 ≤ x) : qTrunc x = ⌊x⌋ := if_pos hx

/-- ResamplerState mirrors the member fields of StreamingResampler. -/
structure ResamplerState where
  inputSampleRate : ℤ
  outputSampleRate : ℤ
  ratio : ℚ
  phase : ℚ
  accumulator : List ℚ

/-- mkResampler embeds the StreamingResampler constructor (resampler.cpp
lines 18-24): ratio is outputRate / inputRate and phase starts at zero. -/
def mkResampler (inputSr outputSr : ℤ) : ResamplerState :=
  { inputSampleRate := inputSr
    outputSampleRate := outputSr
    ratio := (outputSr : ℚ) / (inputSr : ℚ)
    phase := 0
    accumulator := [] }

/-- interpSample embeds the body of the interpolation loop of
StreamingResampler::process (resampler.cpp lines 48-61). -/
def interpSample (acc : List ℚ) (phase ratio : ℚ) (i : ℕ) : ℚ :=
  let srcPos : ℚ := ((i : ℚ) + phase) / ratio
  let srcIndex : ℤ := qTrunc srcPos
  let frac : ℚ := srcPos - (srcIndex : ℚ)
  if srcIndex + 1 < (acc.length : ℤ) then
    acc.getD srcIndex.toNat 0 * (1 - frac) + acc.getD (srcIndex.toNat + 1) 0 * frac
  else if srcIndex < (acc.length : ℤ) then
    acc.getD srcIndex.toNat 0
  else 0

/-- process embeds StreamingResampler::process (resampler.cpp lines 26-75).
The size_t expression accumulator.size() - 1 is modelled as exact
subtraction; the two agree whenever the accumulator is nonempty after the
append, which every theorem below assumes. -/
def process (s : ResamplerState) (input : List ℚ) (outputSize : ℕ) :
    List ℚ × ResamplerState :=
  if s.inputSampleRate = s.outputSampleRate then (input, s)
  else
    let acc := s.accumulator ++ input
    let availableOutputSamples : ℤ := qTrunc (((acc.length : ℚ) - 1) * s.ratio)
    if availableOutputSamples < (outputSize : ℤ) then
      ([], { s with accumulator := acc })
    else
      let output := (List.range outputSize).map (interpSample acc s.phase s.ratio)
      let consumedInputSamples : ℚ := (outputSize : ℚ) / s.ratio
      let samplesToRemove : ℤ := qTrunc consumedInputSamples
      let phase2 := qFmod (s.phase + consumedInputSamples - (samplesToRemove : ℚ)) 1
      let acc2 := if 0 < samplesToRemove ∧ samplesToRemove ≤ (acc.length : ℤ) then
          acc.drop samplesToRemove.toNat else acc
      (output, { s with phase := phase2, accumulator := acc2 })

lemma process_notReady (s : ResamplerState) (input : List ℚ) (n : ℕ)
    (h : s.inputSampleRate ≠ s.outputSampleRate)
    (h2 : qTrunc ((((s.accumulator ++ input).length : ℚ) - 1) * s.ratio) < (n : ℤ)) :
    process s input n = ([], { s with accumulator := s.accumulator ++ input }) := by
  simp only [process]
  rw [if_neg h, if_pos h2]

lemma process_produce (s : ResamplerState) (input : List ℚ) (n : ℕ)
    (h : s.inputSampleRate ≠ s.outputSampleRate)
    (h2 : ¬ qTrunc ((((s.accumulator ++ input).length : ℚ) - 1) * s.ratio) < (n : ℤ)) :
    process s input n =
      ((List.range n).map (interpSample (s.accumulator ++ input) s.phase s.ratio),
       { s with
         phase := qFmod (s.phase + (n : ℚ) / s.ratio - ((qTrunc ((n : ℚ) / s.ratio)) : ℚ)) 1
         accumulator :=
           if 0 < qTrunc ((n : ℚ) / s.ratio) ∧
              qTrunc ((n : ℚ) / s.ratio) ≤ ((s.accumulator ++ input).length : ℤ) then
             (s.accumulator ++ input).drop (qTrunc ((n : ℚ) / s.ratio)).toNat
           else s.accumulator ++ input }) := by
  simp only [process]
  rw [if_neg h, if_neg h2]

/-- C2: whenever process with differing rates returns a non-empty result of
outputSize samples, exactly floor (outputSize / ratio) samples are dropped
from the front of the accumulator (new input included), and phase becomes the
fractional part of (previous phase + outputSize / ratio), hence stays in
[0, 1); phase is never reset. -/
theorem C2_resampler_consumption (s : ResamplerState) (input : List ℚ) (outputSize : ℕ)
    (hrate : s.inputSampleRate ≠ s.outputSampleRate)
    (hratio : s.ratio = (s.outputSampleRate : ℚ) / (s.inputSampleRate : ℚ))
    (hin : 0 < s.inputSampleRate) (hout : 0 < s.outputSampleRate)
    (hph0 : 0 ≤ s.phase) (hph1 : s.phase < 1)
    (hacc : 1 ≤ (s.accumulator ++ input).length)
    (hne : (process s input outputSize).1 ≠ []) :
    (process s input outputSize).1.length = outputSize ∧
    (process s input outputSize).2.accumulator
      = (s.accumulator ++ input).drop (⌊(outputSize : ℚ) / s.ratio⌋).toNat ∧
    (process s input outputSize).2.phase
      = Int.fract (s.phase + (outputSize : ℚ) / s.ratio) ∧
    0 ≤ (process s input outputSize).2.phase ∧
    (process s input outputSize).2.phase < 1 := by
  have hratpos : 0 < s.ratio := by
    rw [hratio]
    exact div_pos (by exact_mod_cast hout) (by exact_mod_cast hin)
  by_cases havail :
      qTrunc ((((s.accumulator ++ input).length : ℚ) - 1) * s.ratio) < (outputSize : ℤ)
  · rw [process_notReady s input outputSize hrate havail] at hne
    exact absurd rfl hne
  · rw [process_produce s input outputSize hrate havail] at hne ⊢
    have hc0 : (0 : ℚ) ≤ (outputSize : ℚ) / s.ratio :=
      div_nonneg (by positivity) hratpos.le
    have htr : qTrunc ((outputSize : ℚ) / s.ratio) = ⌊(outputSize : ℚ) / s.ratio⌋ :=
      qTrunc_of_nonneg _ hc0
    have hL1 : (0 : ℚ) ≤ (((s.accumulator ++ input).length : ℚ) - 1) * s.ratio := by
      have : (1 : ℚ) ≤ ((s.accumulator ++ input).length : ℚ) := by exact_mod_cast hacc
      nlinarith
    have havail2 : (outputSize : ℤ)
        ≤ ⌊(((s.accumulator ++ input).length : ℚ) - 1) * s.ratio⌋ := by
      rw [← qTrunc_of_nonneg _ hL1]
      omega
    have hnq : (outputSize : ℚ) ≤ (((s.accumulator ++ input).length : ℚ) - 1) * s.ratio := by
      calc (outputSize : ℚ) ≤ (⌊(((s.accumulator ++ input).length : ℚ) - 1) * s.ratio⌋ : ℚ) := by
            exact_mod_cast havail2
        _ ≤ _ := Int.floor_le _
    have hcL : (outputSize : ℚ) / s.ratio ≤ ((s.accumulator ++ input).length : ℚ) - 1 :=
      (div_le_iff₀ hratpos).mpr hnq
    have hfloorL : ⌊(outputSize : ℚ) / s.ratio⌋ ≤ ((s.accumulator ++ input).length : ℤ) - 1 := by
      have h1 := Int.floor_le_floor hcL
      have h2 : (((s.accumulator ++ input).length : ℚ) - 1)
          = ((((s.accumulator ++ input).length : ℤ) - 1 : ℤ) : ℚ) := by push_cast; ring
      rw [h2, Int.floor_intCast] at h1
      exact h1
    refine ⟨by simp, ?_, ?_, ?_, ?_⟩
    · rw [htr]
      by_cases hz : 0 < ⌊(outputSize : ℚ) / s.ratio⌋
      · rw [if_pos ⟨hz, by omega⟩]
      · rw [if_neg (by tauto)]
        have hz0 : ⌊(outputSize : ℚ) / s.ratio⌋ = 0 := le_antisymm (by omega) (Int.floor_nonneg.mpr hc0)
        rw [hz0]
        simp
    · rw [htr, qFmod]
      have hfr0 : (0 : ℚ) ≤ Int.fract ((outputSize : ℚ) / s.ratio) := Int.fract_nonneg _
      have hfr1 : Int.fract ((outputSize : ℚ) / s.ratio) < 1 := Int.fract_lt_one _
      have hu : s.phase + (outputSize : ℚ) / s.ratio - (⌊(outputSize : ℚ) / s.ratio⌋ : ℚ)
          = s.phase + Int.fract ((outputSize : ℚ) / s.ratio) := by
        rw [Int.fract]; ring
      have hu0 : (0 : ℚ) ≤ s.phase + (outputSize : ℚ) / s.ratio
          - (⌊(outputSize : ℚ) / s.ratio⌋ : ℚ) := by
        rw [hu]; linarith
      rw [div_one, qTrunc_of_nonneg _ hu0, mul_one]
      rw [show s.phase + (outputSize : ℚ) / s.ratio - (⌊(outputSize : ℚ) / s.ratio⌋ : ℚ)
            - (⌊s.phase + (outputSize : ℚ) / s.ratio - (⌊(outputSize : ℚ) / s.ratio⌋ : ℚ)⌋ : ℚ)
          = Int.fract (s.phase + (outputSize : ℚ) / s.ratio
              - (⌊(outputSize : ℚ) / s.ratio⌋ : ℚ)) from by rw [Int.fract]]
      rw [Int.fract_sub_int]
    · rw [htr, qFmod]
      have hu0 : (0 : ℚ) ≤ s.phase + (outputSize : ℚ) / s.ratio
          - (⌊(outputSize : ℚ) / s.ratio⌋ : ℚ) := by
        have hfr0 : (0 : ℚ) ≤ Int.fract ((outputSize : ℚ) / s.ratio) := Int.fract_nonneg _
        rw [show s.phase + (outputSize : ℚ) / s.ratio - (⌊(outputSize : ℚ) / s.ratio⌋ : ℚ)
              = s.phase + Int.fract ((outputSize : ℚ) / s.ratio) from by rw [Int.fract]; ring]
        linarith
      rw [div_one, qTrunc_of_nonneg _ hu0, mul_one]
      have := Int.fract_nonneg (α := ℚ) (s.phase + (outputSize : ℚ) / s.ratio
        - (⌊(outputSize : ℚ) / s.ratio⌋ : ℚ))
      rw [Int.fract] at this
      linarith
    · rw [htr, qFmod]
      have hu0 : (0 : ℚ) ≤ s.phase + (outputSize : ℚ) / s.ratio
          - (⌊(outputSize : ℚ) / s.ratio⌋ : ℚ) := by
        have hfr0 : (0 : ℚ) ≤ Int.fract ((outputSize : ℚ) / s.ratio) := Int.fract_nonneg _
        rw [show s.phase + (outputSize : ℚ) / s.ratio - (⌊(outputSize : ℚ) / s.ratio⌋ : ℚ)
              = s.phase + Int.fract ((outputSize : ℚ) / s.ratio) from by rw [Int.fract]; ring]
        linarith
      rw [div_one, qTrunc_of_nonneg _ hu0, mul_one]
      have := Int.fract_lt_one (α := ℚ) (s.phase + (outputSize : ℚ) / s.ratio
        - (⌊(outputSize : ℚ) / s.ratio⌋ : ℚ))
      rw [Int.fract] at this
      linarith

/-- C2 witness: a concrete 48 kHz to 16 kHz resampling step (ratio 1/3) on
seven buffered samples producing two outputs, consuming six input samples and
returning to phase zero. -/
theorem C2_resampler_consumption_witness :
    (process (mkResampler 48000 16000) [1, 2, 3, 4, 5, 6, 7] 2).1.length = 2 ∧
    (process (mkResampler 48000 16000) [1, 2, 3, 4, 5, 6, 7] 2).2.accumulator
      = ((mkResampler 48000 16000).accumulator ++ [1, 2, 3, 4, 5, 6, 7]).drop
          (⌊((2 : ℕ) : ℚ) / (mkResampler 48000 16000).ratio⌋).toNat ∧
    (process (mkResampler 48000 16000) [1, 2, 3, 4, 5, 6, 7] 2).2.phase
      = Int.fract ((mkResampler 48000 16000).phase
          + ((2 : ℕ) : ℚ) / (mkResampler 48000 16000).ratio) ∧
    0 ≤ (process (mkResampler 48000 16000) [1, 2, 3, 4, 5, 6, 7] 2).2.phase ∧
    (process (mkResampler 48000 16000) [1, 2, 3, 4, 5, 6, 7] 2).2.phase < 1 :=
  C2_resampler_consumption (mkResampler 48000 16000) [1, 2, 3, 4, 5, 6, 7] 2
    (by decide) rfl (by decide) (by decide) (by decide) (by decide) (by decide)
    (by
      rw [process_produce _ _ _ (by decide) (by norm_num [mkResampler, qTrunc])]
      simp)

/-- C6: NotReady semantics: with differing rates, the result is empty iff
floor ((accumulatorLength - 1) * ratio) < outputSize after appending the
input; in that case all buffered input is retained (prior contents followed
by the new input) and phase is unchanged; otherwise the result has exactly
outputSize samples.  The embedding is total, so no exception is possible. -/
theorem C6_resampler_notReady_semantics (s : ResamplerState) (input : List ℚ)
    (outputSize : ℕ)
    (hrate : s.inputSampleRate ≠ s.outputSampleRate)
    (hratio : s.ratio = (s.outputSampleRate : ℚ) / (s.inputSampleRate : ℚ))
    (hin : 0 < s.inputSampleRate) (hout : 0 < s.outputSampleRate)
    (hn : 1 ≤ outputSize) (hacc : 1 ≤ (s.accumulator ++ input).length) :
    ((process s input outputSize).1 = [] ↔
      ⌊(((s.accumulator ++ input).length : ℚ) - 1) * s.ratio⌋ < (outputSize : ℤ)) ∧
    ((process s input outputSize).1 = [] →
      (process s input outputSize).2.accumulator = s.accumulator ++ input ∧
      (process s input outputSize).2.phase = s.phase) ∧
    ((process s input outputSize).1 ≠ [] →
      (process s input outputSize).1.length = outputSize) := by
  have hL1 : (0 : ℚ) ≤ (((s.accumulator ++ input).length : ℚ) - 1) * s.ratio := by
    have hratpos : 0 < s.ratio := by
      rw [hratio]
      exact div_pos (by exact_mod_cast hout) (by exact_mod_cast hin)
    have h1 : (1 : ℚ) ≤ ((s.accumulator ++ input).length : ℚ) := by exact_mod_cast hacc
    nlinarith
  have htr : qTrunc ((((s.accumulator ++ input).length : ℚ) - 1) * s.ratio)
      = ⌊(((s.accumulator ++ input).length : ℚ) - 1) * s.ratio⌋ := qTrunc_of_nonneg _ hL1
  by_cases havail :
      qTrunc ((((s.accumulator ++ input).length : ℚ) - 1) * s.ratio) < (outputSize : ℤ)
  · rw [process_notReady s input outputSize hrate havail]
    refine ⟨⟨fun _ => ?_, fun _ => rfl⟩, fun _ => ⟨rfl, rfl⟩, fun hcon => absurd rfl hcon⟩
    rw [← htr]
    exact havail
  · rw [process_produce s input outputSize hrate havail]
    rw [htr] at havail
    refine ⟨?_, ?_, fun _ => by simp⟩
    · constructor
      · intro hemp
        have hlen : outputSize = 0 := by simpa using congrArg List.length hemp
        omega
      · intro hlt
        exact absurd hlt (by omega)
    · intro hemp
      have hlen : outputSize = 0 := by simpa using congrArg List.length hemp
      omega

/-- C6 witness: a concrete starved call (two buffered samples at ratio 1/3
cannot yet produce one output), exercising the NotReady branch. -/
theorem C6_resampler_notReady_witness :
    ((process (mkResampler 48000 16000) [1, 2] 1).1 = [] ↔
      ⌊((((mkResampler 48000 16000).accumulator ++ [1, 2]).length : ℚ) - 1)
          * (mkResampler 48000 16000).ratio⌋ < ((1 : ℕ) : ℤ)) ∧
    ((process (mkResampler 48000 16000) [1, 2] 1).1 = [] →
      (process (mkResampler 48000 16000) [1, 2] 1).2.accumulator
        = (mkResampler 48000 16000).accumulator ++ [1, 2] ∧
      (process (mkResampler 48000 16000) [1, 2] 1).2.phase
        = (mkResampler 48000 16000).phase) ∧
    ((process (mkResampler 48000 16000) [1, 2] 1).1 ≠ [] →
      (process (mkResampler 48000 16000) [1, 2] 1).1.length = 1) :=
  C6_resampler_notReady_semantics (mkResampler 48000 16000) [1, 2] 1
    (by decide) rfl (by decide) (by decide) (by decide) (by decide)

/-! ## PoiseProcessor (poise_processor.cpp) -/

/-- ONNX_STATE_SIZE constant from poise_processor.cpp. -/
def ONNX_STATE_SIZE : ℕ := 45304

/-- SOFT_LIMITER_THRESHOLD constant from poise_processor.cpp. -/
noncomputable def SOFT_LIMITER_THRESHOLD : ℝ := 0.98

/-- ProcState mirrors the member fields of PoiseProcessor that the frame
pipeline reads or writes; the wall-clock timing accumulator is not
modelled. -/
structure ProcState where
  vadThresholdDb : ℝ
  attenLimDb : ℝ
  frameSize : ℕ
  states : List ℝ
  frameCount : ℤ
  vad : VADState

/-- mkProcessor embeds the PoiseProcessor constructor (poise_processor.cpp
lines 27-40): 480-sample frames, 48 kHz, a 300 ms hang-time VAD and a zeroed
45304-element ONNX state buffer. -/
noncomputable def mkProcessor (vadThresholdDb attenLimDb : ℝ) : ProcState :=
  { vadThresholdDb := vadThresholdDb
    attenLimDb := attenLimDb
    frameSize := 480
    states := List.replicate ONNX_STATE_SIZE 0
    frameCount := 0
    vad := mkVAD vadThresholdDb 300 48000 }

/-- normalizeFrameSize embeds PoiseProcessor::normalizeFrameSize
(poise_processor.cpp lines 88-95): copy up to frameSize samples into a
zero-filled result of exactly frameSize samples. -/
def normalizeFrameSize (frameSize : ℕ) (audio : List ℝ) : List ℝ :=
  audio.take frameSize ++ List.replicate (frameSize - audio.length) 0

/-- normalizeOutputShape embeds PoiseProcessor::normalizeOutputShape
(poise_processor.cpp lines 97-110): an empty output falls back to the
supplied frame, any other output is padded or truncated to frameSize. -/
noncomputable def normalizeOutputShape (frameSize : ℕ) (output fallback : List ℝ) : List ℝ :=
  if output = [] then fallback
  else output.take frameSize ++ List.replicate (frameSize - output.length) 0

/-- peakAbs embeds the max-absolute-value loop of postprocessAudio
(poise_processor.cpp lines 116-119). -/
noncomputable def peakAbs (audio : List ℝ) : ℝ := audio.foldl (fun m v => max m |v|) 0

/-- softLimit embeds the soft-limiter step of postprocessAudio
(poise_processor.cpp lines 121-127). -/
noncomputable def softLimit (audio : List ℝ) : List ℝ :=
  if peakAbs audio > SOFT_LIMITER_THRESHOLD ∧ peakAbs audio > 0 then
    audio.map (fun v => v * (SOFT_LIMITER_THRESHOLD / peakAbs audio))
  else audio

/-- clipSamples embeds the std::clamp loop of postprocessAudio
(poise_processor.cpp lines 129-132). -/
noncomputable def clipSamples (audio : List ℝ) : List ℝ :=
  audio.map (fun v => if v < -1 then -1 else if 1 < v then 1 else v)

/-- meanOf embeds the DC-offset mean of postprocessAudio
(poise_processor.cpp lines 134-139). -/
noncomputable def meanOf (audio : List ℝ) : ℝ := audio.sum / (audio.length : ℝ)

/-- removeDC embeds the mean-subtraction loop of postprocessAudio
(poise_processor.cpp lines 141-143). -/
noncomputable def removeDC (audio : List ℝ) : List ℝ :=
  audio.map (fun v => v - meanOf audio)

/-- postprocessAudio embeds PoiseProcessor::postprocessAudio
(poise_processor.cpp lines 112-144): early return on an empty frame, then
soft limiter, clamp to [-1, 1], and DC-offset removal, in that order. -/
noncomputable def postprocessAudio (audio : List ℝ) : List ℝ :=
  if audio = [] then audio
  else removeDC (clipSamples (softLimit audio))

/-- processFrame embeds PoiseProcessor::processFrame (poise_processor.cpp
lines 55-86).  The inference callback receives the normalized frame, the
state buffer and attenLimDb and returns the enhanced frame together with the
possibly rewritten state buffer; its wall-clock duration is not modelled. -/
noncomputable def processFrame (p : ProcState) (inputFrame : List ℝ)
    (cb : List ℝ → List ℝ → ℝ → List ℝ × List ℝ) : List ℝ × ProcState :=
  let frame := normalizeFrameSize p.frameSize inputFrame
  let v := isSpeech p.vad frame
  if v.1 = false then (frame, { p with vad := v.2 })
  else
    let r := cb frame p.states p.attenLimDb
    let p2 := { p with vad := v.2, states := r.2, frameCount := p.frameCount + 1 }
    let enhancedFrame := normalizeOutputShape p.frameSize r.1 frame
    (postprocessAudio enhancedFrame, p2)

lemma normalizeFrameSize_length (n : ℕ) (audio : List ℝ) :
    (normalizeFrameSize n audio).length = n := by
  simp only [normalizeFrameSize, List.length_append, List.length_take, List.length_replicate]
  omega

lemma normalizeOutputShape_of_ne (n : ℕ) (output fallback : List ℝ) (h : output ≠ []) :
    normalizeOutputShape n output fallback = normalizeFrameSize n output := by
  rw [normalizeOutputShape, if_neg h, normalizeFrameSize]

lemma normalizeOutputShape_of_empty (n : ℕ) (fallback : List ℝ) :
    normalizeOutputShape n [] fallback = fallback := by
  rw [normalizeOutputShape, if_pos rfl]

lemma softLimit_length (audio : List ℝ) : (softLimit audio).length = audio.length := by
  rw [softLimit]
  split_ifs <;> simp

lemma clipSamples_length (audio : List ℝ) :
    (clipSamples audio).length = audio.length := by
  simp [clipSamples]

lemma foldl_max_abs_mul (c : ℝ) (hc : 0 ≤ c) (audio : List ℝ) :
    ∀ a : ℝ, (audio.map (fun v => v * c)).foldl (fun m v => max m |v|) (c * a)
      = c * audio.foldl (fun m v => max m |v|) a := by
  induction audio with
  | nil => intro a; simp
  | cons x xs ih =>
    intro a
    simp only [List.map_cons, List.foldl_cons]
    rw [show max (c * a) |x * c| = c * max a |x| from by
      rw [abs_mul, abs_of_nonneg hc, mul_comm |x| c, mul_max_of_nonneg _ _ hc]]
    exact ih (max a |x|)

lemma peakAbs_map_mul (audio : List ℝ) (c : ℝ) (hc : 0 ≤ c) :
    peakAbs (audio.map (fun v => v * c)) = c * peakAbs audio := by
  have h := foldl_max_abs_mul c hc audio 0
  rw [mul_zero] at h
  rw [peakAbs, peakAbs, h]

lemma clipSamples_mem_bounds (audio : List ℝ) :
    ∀ x ∈ clipSamples audio, -1 ≤ x ∧ x ≤ 1 := by
  intro x hx
  obtain ⟨y, _hy, rfl⟩ := List.mem_map.mp hx
  split_ifs with h1 h2
  · constructor <;> norm_num
  · constructor <;> norm_num
  · constructor <;> linarith [not_lt.mp h1, not_lt.mp h2]

lemma sum_map_sub_const (l : List ℝ) (c : ℝ) :
    (l.map (fun v => v - c)).sum = l.sum - (l.length : ℝ) * c := by
  induction l with
  | nil => simp
  | cons x xs ih =>
    simp only [List.map_cons, List.sum_cons, ih, List.length_cons]
    push_cast
    ring

lemma meanOf_removeDC (l : List ℝ) (h : l ≠ []) : meanOf (removeDC l) = 0 := by
  have hlen : (l.length : ℝ) ≠ 0 := by
    have := List.length_pos.mpr h
    positivity
  rw [meanOf, removeDC, sum_map_sub_const, List.length_map, meanOf]
  field_simp

lemma mkProcessor_vad (a b : ℝ) : (mkProcessor a b).vad = mkVAD a 300 48000 := rfl

lemma mkProcessor_frameSize (a b : ℝ) : (mkProcessor a b).frameSize = 480 := rfl

lemma normalizeFrameSize_replicate (n : ℕ) (x : ℝ) :
    normalizeFrameSize n (List.replicate n x) = List.replicate n x := by
  simp [normalizeFrameSize]

lemma rmsEnergy_replicate_zero (n : ℕ) : rmsEnergy (List.replicate n (0 : ℝ)) = 0 := by
  have hsum : ((List.replicate n (0 : ℝ)).map (fun v => v * v)).sum = 0 := by simp
  rw [rmsEnergy, hsum, zero_div, Real.sqrt_zero]

lemma rmsEnergy_replicate_one (n : ℕ) (hn : 0 < n) :
    rmsEnergy (List.replicate n (1 : ℝ)) = 1 := by
  have hne : ((n : ℝ)) ≠ 0 := by positivity
  rw [rmsEnergy, List.map_replicate]
  rw [show (1 : ℝ) * 1 = 1 from by ring, List.sum_replicate, List.length_replicate,
    nsmul_eq_mul, mul_one, div_self hne, Real.sqrt_one]

/-- vadSilent480: the default detector classifies a fresh 480-sample silent
frame as non-speech. -/
lemma vadSilent480 :
    (isSpeech (mkVAD (-40) 300 48000) (List.replicate 480 (0 : ℝ))).1 = false := by
  rw [isSpeech_bypass]
  · rw [rmsEnergy_replicate_zero, mkVAD_default_thresholdLinear]
    norm_num
  · rw [mkVAD_framesSinceActive, mkVAD_default_hangFrames]
    omega

/-- vadLoud480: the default detector classifies a full-scale 480-sample frame
as speech. -/
lemma vadLoud480 :
    (isSpeech (mkVAD (-40) 300 48000) (List.replicate 480 (1 : ℝ))).1 = true := by
  rw [isSpeech_active]
  rw [rmsEnergy_replicate_one 480 (by norm_num), mkVAD_default_thresholdLinear]
  norm_num

/-- C7: FrameProcessor silence passthrough: when the VAD classifies the
size-normalized frame as non-speech, processFrame returns the 480-sample
normalized frame (input zero-padded if shorter, truncated if longer)
unmodified, for every inference callback; only the VAD counters change, so
the callback is never consulted and no limiter / clamp / DC-removal runs. -/
theorem C7_silence_passthrough (p : ProcState) (inputFrame : List ℝ)
    (cb : List ℝ → List ℝ → ℝ → List ℝ × List ℝ)
    (hfs : p.frameSize = 480)
    (hvad : (isSpeech p.vad (normalizeFrameSize p.frameSize inputFrame)).1 = false) :
    processFrame p inputFrame cb
      = (normalizeFrameSize p.frameSize inputFrame,
         { p with vad := (isSpeech p.vad (normalizeFrameSize p.frameSize inputFrame)).2 }) ∧
    (processFrame p inputFrame cb).1
      = inputFrame.take 480 ++ List.replicate (480 - inputFrame.length) 0 ∧
    (processFrame p inputFrame cb).1.length = 480 := by
  have hmain : processFrame p inputFrame cb
      = (normalizeFrameSize p.frameSize inputFrame,
         { p with vad := (isSpeech p.vad (normalizeFrameSize p.frameSize inputFrame)).2 }) := by
    simp only [processFrame]
    rw [if_pos hvad]
  refine ⟨hmain, ?_, ?_⟩
  · rw [hmain, normalizeFrameSize, hfs]
  · rw [hmain]
    exact hfs ▸ normalizeFrameSize_length p.frameSize inputFrame

/-- C7 witness: a 480-sample silent frame through the default processor with
an identity stub callback. -/
theorem C7_silence_passthrough_witness :
    processFrame (mkProcessor (-40) (-60)) (List.replicate 480 0) (fun f st _a => (f, st))
      = (normalizeFrameSize (mkProcessor (-40) (-60)).frameSize (List.replicate 480 0),
         { mkProcessor (-40) (-60) with
             vad := (isSpeech (mkProcessor (-40) (-60)).vad
               (normalizeFrameSize (mkProcessor (-40) (-60)).frameSize
                 (List.replicate 480 0))).2 }) ∧
    (processFrame (mkProcessor (-40) (-60)) (List.replicate 480 0)
        (fun f st _a => (f, st))).1
      = (List.replicate 480 (0 : ℝ)).take 480
          ++ List.replicate (480 - (List.replicate 480 (0 : ℝ)).length) 0 ∧
    (processFrame (mkProcessor (-40) (-60)) (List.replicate 480 0)
        (fun f st _a => (f, st))).1.length = 480 :=
  C7_silence_passthrough (mkProcessor (-40) (-60)) (List.replicate 480 0)
    (fun f st _a => (f, st)) rfl
    (by
      rw [mkProcessor_vad, mkProcessor_frameSize, normalizeFrameSize_replicate]
      exact vadSilent480)

/-- C8: post-processing order and effect: for every non-empty frame the code
runs the soft limiter (rescaling so the peak is exactly 0.98 whenever it
exceeded 0.98), then clamps every sample into [-1, 1], then subtracts the
mean so the resulting frame has mean exactly 0. -/
theorem C8_postprocess_pipeline (audio : List ℝ) (hne : audio ≠ []) :
    postprocessAudio audio = removeDC (clipSamples (softLimit audio)) ∧
    (peakAbs audio > 0.98 → peakAbs (softLimit audio) = 0.98) ∧
    (∀ x ∈ clipSamples (softLimit audio), -1 ≤ x ∧ x ≤ 1) ∧
    meanOf (postprocessAudio audio) = 0 := by
  have hT : SOFT_LIMITER_THRESHOLD = (0.98 : ℝ) := rfl
  have hpost : postprocessAudio audio = removeDC (clipSamples (softLimit audio)) := by
    rw [postprocessAudio, if_neg hne]
  refine ⟨hpost, ?_, clipSamples_mem_bounds _, ?_⟩
  · intro hpeak
    have hpos : peakAbs audio > 0 := lt_trans (by norm_num) hpeak
    rw [softLimit, hT, if_pos ⟨hpeak, hpos⟩]
    rw [peakAbs_map_mul _ _ (div_nonneg (by norm_num) hpos.le)]
    exact div_mul_cancel₀ (0.98 : ℝ) (ne_of_gt hpos)
  · rw [hpost]
    apply meanOf_removeDC
    intro hcon
    apply hne
    have hlen := congrArg List.length hcon
    rw [clipSamples_length, softLimit_length] at hlen
    exact List.length_eq_zero.mp (by simpa using hlen)

/-- C8 witness: the post-processing pipeline on the one-sample frame with
peak 3, exercising the limiter branch. -/
theorem C8_postprocess_pipeline_witness :
    postprocessAudio [(3 : ℝ)] = removeDC (clipSamples (softLimit [(3 : ℝ)])) ∧
    (peakAbs [(3 : ℝ)] > 0.98 → peakAbs (softLimit [(3 : ℝ)]) = 0.98) ∧
    (∀ x ∈ clipSamples (softLimit [(3 : ℝ)]), -1 ≤ x ∧ x ≤ 1) ∧
    meanOf (postprocessAudio [(3 : ℝ)]) = 0 :=
  C8_postprocess_pipeline [(3 : ℝ)] (by simp)

/-- C9: fallback on empty inference output: for a speech-classified frame, an
empty callback result makes processFrame post-process and return the
pre-inference normalized frame (no error); a non-empty result is normalized
to exactly 480 samples by the same zero-pad / truncate rule as the input. -/
theorem C9_inference_fallback (p : ProcState) (inputFrame : List ℝ)
    (cb : List ℝ → List ℝ → ℝ → List ℝ × List ℝ)
    (hfs : p.frameSize = 480)
    (hvad : (isSpeech p.vad (normalizeFrameSize p.frameSize inputFrame)).1 = true) :
    ((cb (normalizeFrameSize p.frameSize inputFrame) p.states p.attenLimDb).1 = [] →
      (processFrame p inputFrame cb).1
        = postprocessAudio (normalizeFrameSize p.frameSize inputFrame)) ∧
    ((cb (normalizeFrameSize p.frameSize inputFrame) p.states p.attenLimDb).1 ≠ [] →
      (processFrame p inputFrame cb).1
        = postprocessAudio (normalizeFrameSize p.frameSize
            (cb (normalizeFrameSize p.frameSize inputFrame) p.states p.attenLimDb).1) ∧
      (normalizeOutputShape p.frameSize
          (cb (normalizeFrameSize p.frameSize inputFrame) p.states p.attenLimDb).1
          (normalizeFrameSize p.frameSize inputFrame)).length = 480 ∧
      normalizeOutputShape p.frameSize
          (cb (normalizeFrameSize p.frameSize inputFrame) p.states p.attenLimDb).1
          (normalizeFrameSize p.frameSize inputFrame)
        = normalizeFrameSize p.frameSize
            (cb (normalizeFrameSize p.frameSize inputFrame) p.states p.attenLimDb).1) := by
  constructor
  · intro hempty
    simp only [processFrame]
    rw [if_neg (by simp [hvad]), hempty, normalizeOutputShape_of_empty]
  · intro hne2
    refine ⟨?_, ?_, normalizeOutputShape_of_ne _ _ _ hne2⟩
    · simp only [processFrame]
      rw [if_neg (by simp [hvad]), normalizeOutputShape_of_ne _ _ _ hne2]
    · rw [normalizeOutputShape_of_ne _ _ _ hne2, normalizeFrameSize_length]
      exact hfs

/-- C9 witness: a full-scale speech frame with a callback returning an empty
result, exercising the fallback branch. -/
theorem C9_inference_fallback_witness :
    (((fun (_f st : List ℝ) (_a : ℝ) => (([] : List ℝ), st))
          (normalizeFrameSize (mkProcessor (-40) (-60)).frameSize (List.replicate 480 1))
          (mkProcessor (-40) (-60)).states (mkProcessor (-40) (-60)).attenLimDb).1 = [] →
      (processFrame (mkProcessor (-40) (-60)) (List.replicate 480 1)
          (fun _f st _a => ([], st))).1
        = postprocessAudio (normalizeFrameSize (mkProcessor (-40) (-60)).frameSize
            (List.replicate 480 1))) ∧
    (((fun (_f st : List ℝ) (_a : ℝ) => (([] : List ℝ), st))
          (normalizeFrameSize (mkProcessor (-40) (-60)).frameSize (List.replicate 480 1))
          (mkProcessor (-40) (-60)).states (mkProcessor (-40) (-60)).attenLimDb).1 ≠ [] →
      (processFrame (mkProcessor (-40) (-60)) (List.replicate 480 1)
          (fun _f st _a => ([], st))).1
        = postprocessAudio (normalizeFrameSize (mkProcessor (-40) (-60)).frameSize
            ((fun (_f st : List ℝ) (_a : ℝ) => (([] : List ℝ), st))
                (normalizeFrameSize (mkProcessor (-40) (-60)).frameSize
                  (List.replicate 480 1))
                (mkProcessor (-40) (-60)).states (mkProcessor (-40) (-60)).attenLimDb).1) ∧
      (normalizeOutputShape (mkProcessor (-40) (-60)).frameSize
          ((fun (_f st : List ℝ) (_a : ℝ) => (([] : List ℝ), st))
              (normalizeFrameSize (mkProcessor (-40) (-60)).frameSize
                (List.replicate 480 1))
              (mkProcessor (-40) (-60)).states (mkProcessor (-40) (-60)).attenLimDb).1
          (normalizeFrameSize (mkProcessor (-40) (-60)).frameSize
            (List.replicate 480 1))).length = 480 ∧
      normalizeOutputShape (mkProcessor (-40) (-60)).frameSize
          ((fun (_f st : List ℝ) (_a : ℝ) => (([] : List ℝ), st))
              (normalizeFrameSize (mkProcessor (-40) (-60)).frameSize
                (List.replicate 480 1))
              (mkProcessor (-40) (-60)).states (mkProcessor (-40) (-60)).attenLimDb).1
          (normalizeFrameSize (mkProcessor (-40) (-60)).frameSize (List.replicate 480 1))
        = normalizeFrameSize (mkProcessor (-40) (-60)).frameSize
            ((fun (_f st : List ℝ) (_a : ℝ) => (([] : List ℝ), st))
                (normalizeFrameSize (mkProcessor (-40) (-60)).frameSize
                  (List.replicate 480 1))
                (mkProcessor (-40) (-60)).states
                (mkProcessor (-40) (-60)).attenLimDb).1) :=
  C9_inference_fallback (mkProcessor (-40) (-60)) (List.replicate 480 1)
    (fun _f st _a => ([], st)) rfl
    (by
      rw [mkProcessor_vad, mkProcessor_frameSize, normalizeFrameSize_replicate]
      exact vadLoud480)

/-- c10Output: a 480-sample callback output whose peak is exactly 0.98 but
whose mean is close to -0.98, exposing the post-clamp DC shift. -/
noncomputable def c10Output : List ℝ := 0.98 :: List.replicate 479 (-0.98)

lemma foldl_max_abs_replicate (n : ℕ) (y : ℝ) :
    ∀ a : ℝ, (List.replicate n y).foldl (fun m v => max m |v|) a
      = if n = 0 then a else max a |y| := by
  induction n with
  | zero => intro a; simp
  | succ m ih =>
    intro a
    rw [List.replicate_succ, List.foldl_cons, ih (max a |y|)]
    by_cases hm : m = 0
    · simp [hm]
    · rw [if_neg hm, if_neg (by omega), max_assoc, max_self]

lemma c10Output_length : c10Output.length = 480 := by
  rw [c10Output, List.length_cons, List.length_replicate]

lemma c10Output_ne_nil : c10Output ≠ [] := by
  rw [c10Output]
  exact List.cons_ne_nil _ _

lemma peakAbs_c10Output : peakAbs c10Output = 0.98 := by
  rw [c10Output, peakAbs, List.foldl_cons, foldl_max_abs_replicate, if_neg (by norm_num)]
  rw [abs_of_nonneg (by norm_num : (0 : ℝ) ≤ 0.98),
    abs_of_nonpos (by norm_num : (-0.98 : ℝ) ≤ 0)]
  rw [max_eq_right (by norm_num : (0 : ℝ) ≤ 0.98)]
  norm_num

lemma softLimit_c10Output : softLimit c10Output = c10Output := by
  rw [softLimit, if_neg]
  intro hcon
  rw [peakAbs_c10Output, show SOFT_LIMITER_THRESHOLD = (0.98 : ℝ) from rfl] at hcon
  exact absurd hcon.1 (by norm_num)

lemma clipSamples_c10Output : clipSamples c10Output = c10Output := by
  rw [c10Output, clipSamples, List.map_cons, List.map_replicate]
  norm_num

lemma normalizeFrameSize_c10Output : normalizeFrameSize 480 c10Output = c10Output := by
  rw [normalizeFrameSize, c10Output_length]
  norm_num
  exact le_of_eq c10Output_length

lemma removeDC_c10_head : 1 < (removeDC c10Output).headD 0 := by
  show 1 < (removeDC ((0.98 : ℝ) :: List.replicate 479 (-0.98))).headD 0
  have hmean : meanOf ((0.98 : ℝ) :: List.replicate 479 (-0.98))
      = (0.98 - 479 * 0.98) / 480 := by
    rw [meanOf, List.sum_cons, List.sum_replicate, nsmul_eq_mul, List.length_cons,
      List.length_replicate]
    norm_num
  rw [removeDC, List.map_cons, List.headD_cons, hmean]
  norm_num

lemma processFrame_c10 :
    (processFrame (mkProcessor (-40) (-60)) (List.replicate 480 1)
      (fun _f st _a => (c10Output, st))).1 = removeDC c10Output := by
  simp only [processFrame]
  rw [mkProcessor_vad, mkProcessor_frameSize, normalizeFrameSize_replicate]
  rw [if_neg (by rw [vadLoud480]; simp)]
  rw [normalizeOutputShape_of_ne _ _ _ c10Output_ne_nil, normalizeFrameSize_c10Output]
  rw [postprocessAudio, if_neg c10Output_ne_nil, softLimit_c10Output, clipSamples_c10Output]

lemma list_sum_le_length_mul (l : List ℝ) (b : ℝ) (h : ∀ x ∈ l, x ≤ b) :
    l.sum ≤ (l.length : ℝ) * b := by
  induction l with
  | nil => simp
  | cons x xs ih =>
    simp only [List.sum_cons, List.length_cons]
    have h1 := h x (by simp)
    have h2 := ih (fun v hv => h v (by simp [hv]))
    push_cast
    linarith

lemma list_length_mul_le_sum (l : List ℝ) (b : ℝ) (h : ∀ x ∈ l, b ≤ x) :
    (l.length : ℝ) * b ≤ l.sum := by
  induction l with
  | nil => simp
  | cons x xs ih =>
    simp only [List.sum_cons, List.length_cons]
    have h1 := h x (by simp)
    have h2 := ih (fun v hv => h v (by simp [hv]))
    push_cast
    linarith

/-- C10: because DC removal is applied after the clamp, processFrame output is
not guaranteed to lie in [-1, 1]: every output sample of postprocessAudio has
magnitude at most 2, and the concrete speech-classified input and callback
below produce a first output sample strictly greater than 1. -/
theorem C10_output_range (audio : List ℝ) (hne : audio ≠ []) :
    (∀ x ∈ postprocessAudio audio, |x| ≤ 2) ∧
    1 < ((processFrame (mkProcessor (-40) (-60)) (List.replicate 480 1)
        (fun _f st _a => (c10Output, st))).1.headD 0) := by
  constructor
  · intro x hx
    rw [postprocessAudio, if_neg hne, removeDC] at hx
    obtain ⟨v, hv, rfl⟩ := List.mem_map.mp hx
    have hb := clipSamples_mem_bounds (softLimit audio) v hv
    have hylen : (clipSamples (softLimit audio)).length = audio.length := by
      rw [clipSamples_length, softLimit_length]
    have hyne : clipSamples (softLimit audio) ≠ [] := by
      intro hcon
      apply hne
      rw [hcon] at hylen
      exact List.length_eq_zero.mp hylen.symm
    have hlenpos : (0 : ℝ) < ((clipSamples (softLimit audio)).length : ℝ) := by
      have := List.length_pos.mpr hyne
      positivity
    have hsumr := list_sum_le_length_mul (clipSamples (softLimit audio)) 1
      (fun u hu => (clipSamples_mem_bounds (softLimit audio) u hu).2)
    have hsuml := list_length_mul_le_sum (clipSamples (softLimit audio)) (-1)
      (fun u hu => (clipSamples_mem_bounds (softLimit audio) u hu).1)
    have hm1 : meanOf (clipSamples (softLimit audio)) ≤ 1 := by
      rw [meanOf, div_le_one hlenpos]
      linarith
    have hm2 : -1 ≤ meanOf (clipSamples (softLimit audio)) := by
      rw [meanOf, le_div_iff hlenpos]
      linarith
    rw [abs_le]
    constructor <;> linarith [hb.1, hb.2]
  · rw [processFrame_c10]
    exact removeDC_c10_head

/-- C10 witness: the magnitude bound applied to the one-sample frame [1]
(together with the concrete out-of-range instance carried by the theorem). -/
theorem C10_output_range_witness :
    (∀ x ∈ postprocessAudio [(1 : ℝ)], |x| ≤ 2) ∧
    1 < ((processFrame (mkProcessor (-40) (-60)) (List.replicate 480 1)
        (fun _f st _a => (c10Output, st))).1.headD 0) :=
  C10_output_range [(1 : ℝ)] (by simp)

/-! ## STFTProcessor (stft.cpp) -/

/-- FFT_SIZE constant from stft.h. -/
def FFT_SIZE : ℕ := 512

/-- HOP_SIZE constant from stft.h. -/
def HOP_SIZE : ℕ := 256

/-- NUM_BINS constant from stft.h. -/
def NUM_BINS : ℕ := 257

/-- window embeds STFTProcessor::initWindow (stft.cpp lines 22-28): the
square root of the Hann value 0.5 * (1 - cos (2 pi i / FFT_SIZE)). -/
noncomputable def window (i : ℕ) : ℝ :=
  Real.sqrt (0.5 * (1 - Real.cos (2 * Real.pi * (i : ℝ) / (FFT_SIZE : ℝ))))

/-- bitRevAux: the inner loop of bitReverse computing j over c remaining bit
positions, starting at bit k with accumulator j. -/
def bitRevAux (i : ℕ) : ℕ → ℕ → ℕ → ℕ
  | 0, _k, j => j
  | c + 1, k, j => bitRevAux i c (k + 1) (2 * j + (i / 2 ^ k) % 2)

/-- bitRevIndex embeds the j computation of STFTProcessor::bitReverse
(stft.cpp lines 41-44): the reversal of the low bits of i. -/
def bitRevIndex (bits i : ℕ) : ℕ := bitRevAux i bits 0 0

/-- swapFn models std::swap of two array entries. -/
def swapFn (data : ℕ → ℂ) (a b : ℕ) : ℕ → ℂ :=
  fun i => if i = a then data b else if i = b then data a else data i

/-- bitRevPass embeds the conditional-swap loop of STFTProcessor::bitReverse
(stft.cpp lines 40-48), iterating the index upward with explicit fuel. -/
def bitRevPass (bits : ℕ) : ℕ → ℕ → (ℕ → ℂ) → (ℕ → ℂ)
  | 0, _i, data => data
  | c + 1, i, data =>
    bitRevPass bits c (i + 1)
      (if i < bitRevIndex bits i then swapFn data i (bitRevIndex bits i) else data)

/-- fftBitsAux: the while loop of bitReverse counting bits upward until
2 ^ bits >= n. -/
def fftBitsAux (n : ℕ) : ℕ → ℕ → ℕ
  | 0, b => b
  | f + 1, b => if 2 ^ b < n then fftBitsAux n f (b + 1) else b

/-- fftBits embeds the bit count of STFTProcessor::bitReverse
(stft.cpp lines 36-38). -/
def fftBits (n : ℕ) : ℕ := fftBitsAux n n 0

/-- butterflies embeds the innermost loop of STFTProcessor::fft (stft.cpp
lines 63-69): c remaining iterations over k, carrying the running twiddle w,
writing u + t at start + k and u - t at start + k + half. -/
def butterflies (wn : ℂ) (start half : ℕ) : ℕ → ℕ → ℂ → (ℕ → ℂ) → (ℕ → ℂ)
  | 0, _k, _w, data => data
  | c + 1, k, w, data =>
    let t := w * data (start + k + half)
    let u := data (start + k)
    butterflies wn start half c (k + 1) (w * wn)
      (fun i => if i = start + k + half then u - t else if i = start + k then u + t else data i)

/-- blocksLoop embeds the middle loop of STFTProcessor::fft over block starts
0, size, 2 * size, ... with explicit fuel. -/
def blocksLoop (wn : ℂ) (size : ℕ) : ℕ → ℕ → (ℕ → ℂ) → (ℕ → ℂ)
  | 0, _start, data => data
  | c + 1, start, data =>
    blocksLoop wn size c (start + size) (butterflies wn start (size / 2) (size / 2) 0 1 data)

/-- stagesLoop embeds the outer loop of STFTProcessor::fft over
size = 2, 4, ..., n, building the per-stage twiddle wn from the cosine and
sine of (if inverse then 2 else -2) * pi / size. -/
noncomputable def stagesLoop (inverse : Bool) (n : ℕ) : ℕ → ℕ → (ℕ → ℂ) → (ℕ → ℂ)
  | 0, _size, data => data
  | c + 1, size, data =>
    let angle : ℝ := (if inverse then 2 else -2) * Real.pi / (size : ℝ)
    stagesLoop inverse n c (size * 2)
      (blocksLoop ⟨Real.cos angle, Real.sin angle⟩ size (n / size) 0 data)

/-- fftAlgo embeds STFTProcessor::fft (stft.cpp lines 51-79): bit-reversal
permutation, the butterfly stages, and the division of each of the n entries
by n on the inverse transform. -/
noncomputable def fftAlgo (inverse : Bool) (n : ℕ) (data : ℕ → ℂ) : ℕ → ℂ :=
  let bits := fftBits n
  let d1 := bitRevPass bits n 0 data
  let d2 := stagesLoop inverse n bits 2 d1
  if inverse then fun i => if i < n then d2 i / (n : ℂ) else d2 i else d2

/-- slideBuf: the sliding-window update of computeSTFT - shift the buffer
left by HOP_SIZE and append the chunk at the tail. -/
def slideBuf (old chunk : ℕ → ℝ) : ℕ → ℝ := fun i =>
  if i < FFT_SIZE - HOP_SIZE then old (i + HOP_SIZE) else chunk (i - (FFT_SIZE - HOP_SIZE))

/-- STFTState: the stftBuffer sliding input window and the overlapBuffer
overlap-add accumulator of STFTProcessor. -/
structure STFTState where
  stftBuffer : ℕ → ℝ
  overlapBuffer : ℕ → ℝ

/-- initSTFT embeds STFTProcessor::reset (stft.cpp lines 30-33): both
buffers zeroed. -/
def initSTFT : STFTState := ⟨fun _ => 0, fun _ => 0⟩

/-- computeSTFT embeds STFTProcessor::computeSTFT (stft.cpp lines 81-105):
slide the input window, apply the analysis window, forward FFT, and return
the real and imaginary parts of the bins together with the updated state
(only indices below NUM_BINS of the returned functions are meaningful). -/
noncomputable def computeSTFT (s : STFTState) (chunk : ℕ → ℝ) :
    ((ℕ → ℝ) × (ℕ → ℝ)) × STFTState :=
  let buf := slideBuf s.stftBuffer chunk
  let spec := fftAlgo false FFT_SIZE (fun i => ⟨buf i * window i, 0⟩)
  ((fun i => (spec i).re, fun i => (spec i).im), { s with stftBuffer := buf })

/-- reconstructAudio embeds STFTProcessor::reconstructAudio (stft.cpp lines
107-136): rebuild the full spectrum by Hermitian symmetry
(bin (FFT_SIZE - i) is the conjugate of bin i for i in [1, NUM_BINS - 2]),
inverse FFT, apply the synthesis window, overlap-add, emit the first
HOP_SIZE accumulator samples and shift the accumulator left with the tail
zeroed. -/
noncomputable def reconstructAudio (s : STFTState) (realIn imagIn : ℕ → ℝ) :
    (ℕ → ℝ) × STFTState :=
  let spec : ℕ → ℂ := fun i =>
    if i < NUM_BINS then ⟨realIn i, imagIn i⟩
    else (starRingEnd ℂ) ⟨realIn (FFT_SIZE - i), imagIn (FFT_SIZE - i)⟩
  let timeD := fftAlgo true FFT_SIZE spec
  let ola : ℕ → ℝ := fun i => s.overlapBuffer i + (timeD i).re * window i
  (ola, { s with overlapBuffer := fun i =>
    if i < FFT_SIZE - HOP_SIZE then ola (i + HOP_SIZE) else 0 })

/-- stftStep: one call to computeSTFT followed by reconstructAudio on the
bins it produced, as in the round-trip claim. -/
noncomputable def stftStep (s : STFTState) (chunk : ℕ → ℝ) : (ℕ → ℝ) × STFTState :=
  let r := computeSTFT s chunk
  reconstructAudio r.2 r.1.1 r.1.2

/-- stftRun: the engine state after feeding chunks 1, ..., k in order from a
reset engine. -/
noncomputable def stftRun (chunks : ℕ → ℕ → ℝ) : ℕ → STFTState
  | 0 => initSTFT
  | k + 1 => (stftStep (stftRun chunks k) (chunks (k + 1))).2

/-- stftOut: the k-th reconstructed chunk (k counted from 1). -/
noncomputable def stftOut (chunks : ℕ → ℕ → ℝ) (k : ℕ) : ℕ → ℝ :=
  (stftStep (stftRun chunks (k - 1)) (chunks k)).1

lemma bitRevAux_shift (i : ℕ) :
    ∀ (c k j : ℕ), bitRevAux i c (k + 1) j = bitRevAux (i / 2) c k j := by
  intro c
  induction c with
  | zero => intro k j; rfl
  | succ c2 ih =>
    intro k j
    rw [bitRevAux, bitRevAux, ih]
    congr 2
    rw [Nat.div_div_eq_div_mul, pow_succ, mul_comm 2 (2 ^ k)]

lemma bitRevAux_acc (i : ℕ) :
    ∀ (c k j : ℕ), bitRevAux i c k j = bitRevAux i c k 0 + j * 2 ^ c := by
  intro c
  induction c with
  | zero => intro k j; simp [bitRevAux]
  | succ c2 ih =>
    intro k j
    rw [bitRevAux, bitRevAux]
    rw [ih _ (2 * j + i / 2 ^ k % 2), ih _ (2 * 0 + i / 2 ^ k % 2)]
    ring

lemma bitRevIndex_succ (r i : ℕ) :
    bitRevIndex (r + 1) i = bitRevIndex r (i / 2) + (i % 2) * 2 ^ r := by
  rw [bitRevIndex, bitRevAux, bitRevAux_shift, bitRevAux_acc, bitRevIndex]
  norm_num

lemma bitRevIndex_zero (i : ℕ) : bitRevIndex 0 i = 0 := rfl

lemma bitRevIndex_lt (r : ℕ) : ∀ i, bitRevIndex r i < 2 ^ r := by
  induction r with
  | zero => intro i; rw [bitRevIndex_zero]; norm_num
  | succ r2 ih =>
    intro i
    rw [bitRevIndex_succ, pow_succ]
    have h1 := ih (i / 2)
    have h2 : i % 2 < 2 := Nat.mod_lt _ (by norm_num)
    nlinarith

lemma bitRevIndex_two_mul (r b : ℕ) : bitRevIndex (r + 1) (2 * b) = bitRevIndex r b := by
  rw [bitRevIndex_succ, Nat.mul_div_cancel_left _ (by norm_num : 0 < 2),
    Nat.mul_mod_right]
  ring

lemma bitRevIndex_two_mul_add_one (r b : ℕ) :
    bitRevIndex (r + 1) (2 * b + 1) = bitRevIndex r b + 2 ^ r := by
  rw [bitRevIndex_succ]
  have h1 : (2 * b + 1) / 2 = b := by omega
  have h2 : (2 * b + 1) % 2 = 1 := by omega
  rw [h1, h2, one_mul]

lemma bitRevIndex_msb (r : ℕ) : ∀ i, bitRevIndex (r + 1) i
    = 2 * bitRevIndex r (i % 2 ^ r) + (i / 2 ^ r) % 2 := by
  induction r with
  | zero =>
    intro i
    rw [bitRevIndex_succ, bitRevIndex_zero, bitRevIndex_zero]
    norm_num
  | succ r2 ih =>
    intro i
    rw [bitRevIndex_succ, ih (i / 2), bitRevIndex_succ]
    have h1 : i % 2 ^ (r2 + 1) / 2 = i / 2 % 2 ^ r2 := by
      rw [pow_succ, mul_comm (2 ^ r2) 2]
      exact Nat.mod_mul_right_div_self i 2 (2 ^ r2)
    have h2 : i % 2 ^ (r2 + 1) % 2 = i % 2 := by
      apply Nat.mod_mod_of_dvd
      exact Dvd.intro (2 ^ r2) (by rw [pow_succ]; ring)
    have h3 : i / 2 / 2 ^ r2 = i / 2 ^ (r2 + 1) := by
      rw [Nat.div_div_eq_div_mul, pow_succ, mul_comm]
    rw [h1, h2, h3]
    ring

lemma bitRevIndex_involution (r : ℕ) :
    ∀ i, i < 2 ^ r → bitRevIndex r (bitRevIndex r i) = i := by
  induction r with
  | zero =>
    intro i hi
    interval_cases i
    rfl
  | succ r2 ih =>
    intro i hi
    rw [bitRevIndex_msb r2 (bitRevIndex (r2 + 1) i), bitRevIndex_succ r2 i]
    have hlt := bitRevIndex_lt r2 (i / 2)
    have h1 : (bitRevIndex r2 (i / 2) + i % 2 * 2 ^ r2) % 2 ^ r2
        = bitRevIndex r2 (i / 2) := by
      rw [Nat.add_mul_mod_self_right, Nat.mod_eq_of_lt hlt]
    have h2 : (bitRevIndex r2 (i / 2) + i % 2 * 2 ^ r2) / 2 ^ r2 = i % 2 := by
      rw [Nat.add_mul_div_right _ _ (by positivity : 0 < 2 ^ r2),
        Nat.div_eq_of_lt hlt]
      ring
    rw [pow_succ] at hi
    rw [h1, h2, ih (i / 2) (by omega)]
    omega

/-- bitRevPass_invariant: processing indices upward, an array that already
holds the bit-reversed value at every position touched so far ends up fully
bit-reversed. -/
lemma bitRevPass_invariant (bits : ℕ) :
    ∀ (c i0 : ℕ) (data x : ℕ → ℂ),
      i0 + c = 2 ^ bits →
      (∀ i, data i = if i < 2 ^ bits ∧ (i < i0 ∨ bitRevIndex bits i < i0)
          then x (bitRevIndex bits i) else x i) →
      ∀ i, bitRevPass bits c i0 data i
        = if i < 2 ^ bits then x (bitRevIndex bits i) else x i := by
  intro c
  induction c with
  | zero =>
    intro i0 data x hsum hinv i
    rw [bitRevPass, hinv i]
    by_cases hi : i < 2 ^ bits
    · rw [if_pos ⟨hi, Or.inl (by omega)⟩, if_pos hi]
    · rw [if_neg (by tauto), if_neg hi]
  | succ c2 ih =>
    intro i0 data x hsum hinv i
    rw [bitRevPass]
    have hi0 : i0 < 2 ^ bits := by omega
    have hrev0 := bitRevIndex_lt bits i0
    have hinvol := bitRevIndex_involution bits i0 hi0
    apply ih (i0 + 1) _ x (by omega)
    intro i2
    by_cases hcase : i0 < bitRevIndex bits i0
    · rw [if_pos hcase]
      by_cases h1 : i2 = i0
      · subst h1
        rw [swapFn, if_pos rfl, hinv (bitRevIndex bits i2)]
        rw [if_neg (by
          intro hcon
          rcases hcon.2 with h | h
          · omega
          · rw [hinvol] at h; omega)]
        rw [if_pos ⟨by omega, Or.inl (by omega)⟩]
      · by_cases h2 : i2 = bitRevIndex bits i0
        · rw [swapFn, if_neg (by omega), if_pos h2, hinv i0]
          rw [if_neg (by intro hcon; rcases hcon.2 with h | h <;> omega)]
          rw [if_pos ⟨by rw [h2]; exact hrev0, Or.inr (by rw [h2, hinvol]; omega)⟩]
          rw [h2, hinvol]
        · rw [swapFn, if_neg h1, if_neg h2, hinv i2]
          by_cases hin : i2 < 2 ^ bits
          · by_cases hold : i2 < i0 ∨ bitRevIndex bits i2 < i0
            · rw [if_pos ⟨hin, hold⟩, if_pos ⟨hin, by
                rcases hold with h | h
                · exact Or.inl (by omega)
                · exact Or.inr (by omega)⟩]
            · push_neg at hold
              rw [if_neg (by
                  intro hcon
                  rcases hcon.2 with h | h <;> omega)]
              rw [if_neg (by
                intro hcon
                rcases hcon.2 with h | h
                · omega
                · have h5 : bitRevIndex bits i2 = i0 := by omega
                  have h6 := bitRevIndex_involution bits i2 hin
                  rw [h5] at h6
                  exact h2 h6.symm)]
          · rw [if_neg (by tauto), if_neg (by tauto)]
    · rw [if_neg hcase]
      push_neg at hcase
      rw [hinv i2]
      by_cases hin : i2 < 2 ^ bits
      · by_cases hold : i2 < i0 ∨ bitRevIndex bits i2 < i0
        · rw [if_pos ⟨hin, hold⟩, if_pos ⟨hin, by
            rcases hold with h | h
            · exact Or.inl (by omega)
            · exact Or.inr (by omega)⟩]
        · push_neg at hold
          by_cases hnew : i2 < i0 + 1 ∨ bitRevIndex bits i2 < i0 + 1
          · rcases hnew with h | h
            · have h7 : i2 = i0 := by omega
              subst h7
              have h8 : bitRevIndex bits i2 = i2 := by omega
              rw [if_neg (by intro hcon; rcases hcon.2 with h | h <;> omega)]
              rw [if_pos ⟨hin, Or.inl (by omega)⟩, h8]
            · have h9 : bitRevIndex bits i2 = i0 := by omega
              have h6 := bitRevIndex_involution bits i2 hin
              rw [h9] at h6
              have h10 : i2 = i0 := by omega
              subst h10
              rw [if_neg (by intro hcon; rcases hcon.2 with h | h <;> omega)]
              rw [if_pos ⟨hin, Or.inr (by omega)⟩, h9]
          · push_neg at hnew
            rw [if_neg (by intro hcon; rcases hcon.2 with h | h <;> omega)]
            rw [if_neg (by intro hcon; rcases hcon.2 with h | h <;> omega)]
      · rw [if_neg (by tauto), if_neg (by tauto)]

/-- bitRevPass_eval: the conditional-swap loop realizes the bit-reversal
permutation on the first 2 ^ bits entries. -/
lemma bitRevPass_eval (bits : ℕ) (x : ℕ → ℂ) (i : ℕ) :
    bitRevPass bits (2 ^ bits) 0 x i
      = if i < 2 ^ bits then x (bitRevIndex bits i) else x i := by
  apply bitRevPass_invariant bits (2 ^ bits) 0 x x (by omega)
  intro i2
  rw [if_neg (by omega)]

lemma butterflies_succ (wn : ℂ) (start half c k0 : ℕ) (w0 : ℂ) (data : ℕ → ℂ) :
    butterflies wn start half (c + 1) k0 w0 data
      = butterflies wn start half c (k0 + 1) (w0 * wn)
          (fun i => if i = start + k0 + half
            then data (start + k0) - w0 * data (start + k0 + half)
            else if i = start + k0
            then data (start + k0) + w0 * data (start + k0 + half)
            else data i) := rfl

/-- butterflies_spec: closed form of the innermost butterfly loop.  Iteration
k (for k in [k0, k0 + c)) writes the sum at start + k and the difference at
start + k + half with twiddle w0 * wn ^ (k - k0); every other position is
untouched. -/
lemma butterflies_spec (wn : ℂ) (start half : ℕ) :
    ∀ (c k0 : ℕ) (w0 : ℂ) (data : ℕ → ℂ), k0 + c ≤ half →
      (∀ k, k0 ≤ k → k < k0 + c →
        butterflies wn start half c k0 w0 data (start + k)
          = data (start + k) + (w0 * wn ^ (k - k0)) * data (start + k + half) ∧
        butterflies wn start half c k0 w0 data (start + k + half)
          = data (start + k) - (w0 * wn ^ (k - k0)) * data (start + k + half)) ∧
      (∀ i, (i < start + k0 ∨ (start + k0 + c ≤ i ∧ i < start + half + k0)
          ∨ start + half + k0 + c ≤ i) →
        butterflies wn start half c k0 w0 data i = data i) := by
  intro c
  induction c with
  | zero =>
    intro k0 w0 data _hle
    exact ⟨fun k _h1 h2 => absurd h2 (by omega), fun i _ => rfl⟩
  | succ c2 ih =>
    intro k0 w0 data hle
    rw [butterflies_succ]
    obtain ⟨ih1, ih2⟩ := ih (k0 + 1) (w0 * wn)
      (fun i => if i = start + k0 + half
        then data (start + k0) - w0 * data (start + k0 + half)
        else if i = start + k0
        then data (start + k0) + w0 * data (start + k0 + half)
        else data i) (by omega)
    constructor
    · intro k hk1 hk2
      by_cases hk : k = k0
      · subst hk
        constructor
        · rw [ih2 (start + k) (Or.inl (by omega))]
          simp only []
          rw [if_neg (by omega), if_pos trivial]
          rw [Nat.sub_self, pow_zero]
          ring
        · rw [ih2 (start + k + half) (Or.inr (Or.inl (by omega)))]
          simp only []
          rw [if_pos trivial]
          rw [Nat.sub_self, pow_zero]
          ring
      · have hgt : k0 + 1 ≤ k := by omega
        obtain ⟨e1, e2⟩ := ih1 k hgt (by omega)
        have hd1 : (if start + k = start + k0 + half
            then data (start + k0) - w0 * data (start + k0 + half)
            else if start + k = start + k0
            then data (start + k0) + w0 * data (start + k0 + half)
            else data (start + k)) = data (start + k) := by
          have hkh : k < half := by omega
          rw [if_neg (by omega), if_neg (by omega)]
        have hd2 : (if start + k + half = start + k0 + half
            then data (start + k0) - w0 * data (start + k0 + half)
            else if start + k + half = start + k0
            then data (start + k0) + w0 * data (start + k0 + half)
            else data (start + k + half)) = data (start + k + half) := by
          have hh : 0 < half := by omega
          rw [if_neg (by omega), if_neg (by omega)]
        rw [hd1, hd2] at e1 e2
        have hpow : (w0 * wn) * wn ^ (k - (k0 + 1)) = w0 * wn ^ (k - k0) := by
          have hs : k - k0 = (k - (k0 + 1)) + 1 := by omega
          rw [hs, pow_succ]
          ring
        rw [e1, e2, hpow]
        exact ⟨rfl, rfl⟩
    · intro i hi
      rw [ih2 i (by omega)]
      have hh : 0 < half := by omega
      rw [if_neg (by omega), if_neg (by omega)]

lemma blocksLoop_succ (wn : ℂ) (size c start : ℕ) (data : ℕ → ℂ) :
    blocksLoop wn size (c + 1) start data
      = blocksLoop wn size c (start + size)
          (butterflies wn start (size / 2) (size / 2) 0 1 data) := rfl

/-- blocksLoop_spec: each of the c blocks of length 2 * half starting at
start receives one radix-2 butterfly pass; every other position is
untouched. -/
lemma blocksLoop_spec (wn : ℂ) (half : ℕ) (hh : 0 < half) :
    ∀ (c start : ℕ) (data : ℕ → ℂ),
      (∀ b r, b < c → r < 2 * half →
        blocksLoop wn (2 * half) c start data (start + b * (2 * half) + r)
          = if r < half then
              data (start + b * (2 * half) + r)
                + wn ^ r * data (start + b * (2 * half) + r + half)
            else
              data (start + b * (2 * half) + (r - half))
                - wn ^ (r - half) * data (start + b * (2 * half) + r)) ∧
      (∀ i, i < start ∨ start + c * (2 * half) ≤ i →
        blocksLoop wn (2 * half) c start data i = data i) := by
  intro c
  induction c with
  | zero =>
    intro start data
    exact ⟨fun b r hb _ => absurd hb (by omega), fun i _ => rfl⟩
  | succ c2 ih =>
    intro start data
    rw [blocksLoop_succ, Nat.mul_div_cancel_left half (by norm_num : 0 < 2)]
    obtain ⟨ihA, ihB⟩ := ih (start + 2 * half) (butterflies wn start half half 0 1 data)
    obtain ⟨bfA, bfB⟩ := butterflies_spec wn start half half 0 1 data (by omega)
    constructor
    · intro b r hb hr
      by_cases hb0 : b = 0
      · subst hb0
        have e0 : start + 0 * (2 * half) + r = start + r := by ring
        have e0c : start + 0 * (2 * half) + (r - half) = start + (r - half) := by ring
        rw [e0, e0c]
        rw [ihB (start + r) (Or.inl (by omega))]
        by_cases hrh : r < half
        · rw [if_pos hrh, (bfA r (by omega) (by omega)).1, Nat.sub_zero, one_mul]
        · have e4 : start + r = start + (r - half) + half := by omega
          rw [if_neg hrh, e4, (bfA (r - half) (by omega) (by omega)).2,
            Nat.sub_zero, one_mul]
      · obtain ⟨b2, rfl⟩ : ∃ b2, b = b2 + 1 := ⟨b - 1, by omega⟩
        have e1 : start + (b2 + 1) * (2 * half) + r
            = start + 2 * half + b2 * (2 * half) + r := by ring
        have e3 : start + (b2 + 1) * (2 * half) + (r - half)
            = start + 2 * half + b2 * (2 * half) + (r - half) := by ring
        rw [e1, e3, ihA b2 r (by omega) hr]
        have hz := Nat.zero_le (b2 * (2 * half))
        by_cases hrh : r < half
        · rw [if_pos hrh, if_pos hrh,
            bfB _ (Or.inr (Or.inr (by linarith))),
            bfB _ (Or.inr (Or.inr (by linarith)))]
        · rw [if_neg hrh, if_neg hrh,
            bfB _ (Or.inr (Or.inr (by linarith))),
            bfB _ (Or.inr (Or.inr (by linarith)))]
    · intro i hi
      have hz := Nat.zero_le (c2 * (2 * half))
      have hmul : start + (c2 + 1) * (2 * half)
          = start + 2 * half + c2 * (2 * half) := by ring
      rcases hi with hi | hi
      · rw [ihB i (Or.inl (by linarith)), bfB i (Or.inl (by linarith))]
      · rw [hmul] at hi
        rw [ihB i (Or.inr (by linarith)), bfB i (Or.inr (Or.inr (by linarith)))]

/-- twiddle: the exact value of the per-stage root of unity wn that fft
builds from cosine and sine of (if inverse then 2 else -2) * pi / m. -/
noncomputable def twiddle (inverse : Bool) (m : ℕ) : ℂ :=
  Complex.exp ((((if inverse then 2 else -2 : ℝ) * Real.pi / (m : ℝ) : ℝ) : ℂ) * Complex.I)

lemma stage_wn_eq (inverse : Bool) (m : ℕ) :
    (⟨Real.cos ((if inverse then 2 else -2 : ℝ) * Real.pi / (m : ℝ)),
      Real.sin ((if inverse then 2 else -2 : ℝ) * Real.pi / (m : ℝ))⟩ : ℂ)
      = twiddle inverse m := by
  rw [twiddle, Complex.exp_mul_I, Complex.mk_eq_add_mul_I,
    ← Complex.ofReal_cos, ← Complex.ofReal_sin]

lemma twiddle_pow (inverse : Bool) (m k : ℕ) :
    twiddle inverse m ^ k
      = Complex.exp ((((k : ℝ) * ((if inverse then 2 else -2 : ℝ) * Real.pi / (m : ℝ)) : ℝ) : ℂ)
          * Complex.I) := by
  rw [twiddle, ← Complex.exp_nat_mul]
  congr 1
  push_cast
  ring

lemma exp_ofReal_mul_I_eq_one (x : ℝ) (m : ℤ) (h : x = m * (2 * Real.pi)) :
    Complex.exp ((x : ℂ) * Complex.I) = 1 := by
  rw [h]
  push_cast
  rw [show ((m : ℂ) * (2 * (Real.pi : ℂ))) * Complex.I
      = m * (2 * Real.pi * Complex.I) from by ring]
  exact Complex.exp_int_mul_two_pi_mul_I m

lemma exp_neg_pi_mul_I : Complex.exp (-(Real.pi : ℂ) * Complex.I) = -1 := by
  rw [show (-(Real.pi : ℂ)) * Complex.I = -(Real.pi * Complex.I) from by ring,
    Complex.exp_neg, Complex.exp_pi_mul_I]
  norm_num

lemma twiddle_sq (inverse : Bool) (m : ℕ) (hm : 0 < m) :
    twiddle inverse (2 * m) ^ 2 = twiddle inverse m := by
  have hm0 : (m : ℝ) ≠ 0 := by positivity
  have hang : ((2 : ℕ) : ℝ) * ((if inverse then 2 else -2 : ℝ) * Real.pi / ((2 * m : ℕ) : ℝ))
      = (if inverse then 2 else -2 : ℝ) * Real.pi / (m : ℝ) := by
    push_cast
    field_simp
    ring
  rw [twiddle_pow, hang, twiddle]

lemma twiddle_pow_half (inverse : Bool) (m : ℕ) (hm : 0 < m) :
    twiddle inverse (2 * m) ^ m = -1 := by
  have hm0 : (m : ℝ) ≠ 0 := by positivity
  rw [twiddle_pow]
  cases inverse with
  | false =>
    have hang : ((m : ℕ) : ℝ) * ((if false then 2 else -2 : ℝ) * Real.pi / ((2 * m : ℕ) : ℝ))
        = -Real.pi := by
      simp only [Bool.false_eq_true, if_false]
      push_cast
      field_simp
      ring
    rw [hang]
    rw [show ((-Real.pi : ℝ) : ℂ) = -(Real.pi : ℂ) from by push_cast; ring]
    exact exp_neg_pi_mul_I
  | true =>
    have hang : ((m : ℕ) : ℝ) * ((if true then 2 else -2 : ℝ) * Real.pi / ((2 * m : ℕ) : ℝ))
        = Real.pi := by
      simp only [if_true]
      push_cast
      field_simp
      ring
    rw [hang]
    exact Complex.exp_pi_mul_I

lemma twiddle_pow_self (inverse : Bool) (m : ℕ) (hm : 0 < m) :
    twiddle inverse m ^ m = 1 := by
  have hm0 : (m : ℝ) ≠ 0 := by positivity
  rw [twiddle_pow]
  apply exp_ofReal_mul_I_eq_one _ (if inverse then 1 else -1)
  cases inverse with
  | false =>
    simp only [Bool.false_eq_true, if_false]
    push_cast
    field_simp
    ring
  | true =>
    simp only [if_true]
    push_cast
    field_simp

/-- dftSum: the discrete Fourier sum of length m with root w. -/
noncomputable def dftSum (m : ℕ) (w : ℂ) (f : ℕ → ℂ) (t : ℕ) : ℂ :=
  ∑ j ∈ Finset.range m, f j * w ^ (j * t)

lemma dftSum_congr (m : ℕ) (w : ℂ) (f g : ℕ → ℂ) (h : ∀ j, j < m → f j = g j) (t : ℕ) :
    dftSum m w f t = dftSum m w g t := by
  apply Finset.sum_congr rfl
  intro j hj
  rw [h j (Finset.mem_range.mp hj)]

lemma sum_range_two_mul (m : ℕ) (f : ℕ → ℂ) :
    ∑ j ∈ Finset.range (2 * m), f j
      = (∑ j ∈ Finset.range m, f (2 * j)) + ∑ j ∈ Finset.range m, f (2 * j + 1) := by
  induction m with
  | zero => simp
  | succ m2 ih =>
    rw [show 2 * (m2 + 1) = 2 * m2 + 1 + 1 from by ring, Finset.sum_range_succ,
      Finset.sum_range_succ, Finset.sum_range_succ (fun j => f (2 * j)),
      Finset.sum_range_succ (fun j => f (2 * j + 1)), ih]
    ring

/-- dftSum_merge: the radix-2 butterfly identity relating a length 2m Fourier
sum to the sums of its even and odd subsequences. -/
lemma dftSum_merge (m : ℕ) (w2 w : ℂ) (hsq : w2 ^ 2 = w) (hhalf : w2 ^ m = -1)
    (hself : w ^ m = 1) (g : ℕ → ℂ) (t : ℕ) :
    dftSum (2 * m) w2 g t
      = dftSum m w (fun j => g (2 * j)) t + w2 ^ t * dftSum m w (fun j => g (2 * j + 1)) t ∧
    dftSum (2 * m) w2 g (t + m)
      = dftSum m w (fun j => g (2 * j)) t - w2 ^ t * dftSum m w (fun j => g (2 * j + 1)) t := by
  have heven : ∀ j : ℕ, g (2 * j) * w2 ^ (2 * j * t) = g (2 * j) * w ^ (j * t) := by
    intro j
    rw [show 2 * j * t = 2 * (j * t) from by ring, pow_mul, hsq]
  have hodd : ∀ j : ℕ, g (2 * j + 1) * w2 ^ ((2 * j + 1) * t)
      = w2 ^ t * (g (2 * j + 1) * w ^ (j * t)) := by
    intro j
    rw [show (2 * j + 1) * t = t + 2 * (j * t) from by ring, pow_add, pow_mul, hsq]
    ring
  have heven2 : ∀ j : ℕ, g (2 * j) * w2 ^ (2 * j * (t + m)) = g (2 * j) * w ^ (j * t) := by
    intro j
    rw [show 2 * j * (t + m) = 2 * (j * t + m * j) from by ring,
      show w2 ^ (2 * (j * t + m * j)) = (w2 ^ 2) ^ (j * t + m * j) from
        pow_mul w2 2 (j * t + m * j),
      hsq,
      show w ^ (j * t + m * j) = w ^ (j * t) * w ^ (m * j) from pow_add w (j * t) (m * j),
      show w ^ (m * j) = (w ^ m) ^ j from pow_mul w m j, hself, one_pow, mul_one]
  have hodd2 : ∀ j : ℕ, g (2 * j + 1) * w2 ^ ((2 * j + 1) * (t + m))
      = -(w2 ^ t) * (g (2 * j + 1) * w ^ (j * t)) := by
    intro j
    rw [show (2 * j + 1) * (t + m) = t + m + 2 * (j * t + m * j) from by ring,
      pow_add, pow_add,
      show w2 ^ (2 * (j * t + m * j)) = (w2 ^ 2) ^ (j * t + m * j) from
        pow_mul w2 2 (j * t + m * j),
      hsq, hhalf,
      show w ^ (j * t + m * j) = w ^ (j * t) * w ^ (m * j) from pow_add w (j * t) (m * j),
      show w ^ (m * j) = (w ^ m) ^ j from pow_mul w m j, hself, one_pow, mul_one]
    ring
  constructor
  · rw [dftSum, sum_range_two_mul, dftSum, dftSum, Finset.mul_sum]
    rw [Finset.sum_congr rfl (fun j _ => heven j),
      Finset.sum_congr rfl (fun j _ => hodd j)]
  · rw [dftSum, sum_range_two_mul, dftSum, dftSum]
    rw [Finset.sum_congr rfl (fun j _ => heven2 j),
      Finset.sum_congr rfl (fun j _ => hodd2 j)]
    rw [show ∑ j ∈ Finset.range m, -(w2 ^ t) * (g (2 * j + 1) * w ^ (j * t))
        = -(w2 ^ t) * ∑ j ∈ Finset.range m, g (2 * j + 1) * w ^ (j * t) from
      (Finset.mul_sum _ _ _).symm]
    ring

lemma twiddle_prod_pow (n j k : ℕ) :
    twiddle false n ^ j * twiddle true n ^ k
      = Complex.exp (((((k : ℝ) - (j : ℝ)) * (2 * Real.pi) / (n : ℝ) : ℝ) : ℂ)
          * Complex.I) := by
  rw [twiddle_pow, twiddle_pow, ← Complex.exp_add]
  congr 1
  simp only [Bool.false_eq_true, if_false, if_true]
  push_cast
  ring_nf

lemma twiddle_prod_pow_n (n j k : ℕ) (hn : 0 < n) :
    (twiddle false n ^ j * twiddle true n ^ k) ^ n = 1 := by
  have hn0 : (n : ℝ) ≠ 0 := by positivity
  rw [twiddle_prod_pow, ← Complex.exp_nat_mul]
  have hcast : ((n : ℂ) * (((((k : ℝ) - (j : ℝ)) * (2 * Real.pi) / (n : ℝ) : ℝ) : ℂ)
        * Complex.I))
      = ((((n : ℝ) * (((k : ℝ) - (j : ℝ)) * (2 * Real.pi) / (n : ℝ)) : ℝ) : ℂ)
        * Complex.I) := by
    push_cast
    ring
  rw [hcast]
  apply exp_ofReal_mul_I_eq_one _ ((k : ℤ) - (j : ℤ))
  push_cast
  field_simp

lemma twiddle_prod_ne_one (n j k : ℕ) (hn : 0 < n) (hj : j < n) (hk : k < n)
    (hne : j ≠ k) :
    twiddle false n ^ j * twiddle true n ^ k ≠ 1 := by
  have hn0 : (n : ℝ) ≠ 0 := by positivity
  have hpi : (0 : ℝ) < Real.pi := Real.pi_pos
  rw [twiddle_prod_pow]
  intro hcon
  rw [Complex.exp_eq_one_iff] at hcon
  obtain ⟨z, hz⟩ := hcon
  have hzcast : ((z : ℂ)) * (2 * (Real.pi : ℂ) * Complex.I)
      = (((z : ℝ) * (2 * Real.pi) : ℝ) : ℂ) * Complex.I := by
    push_cast
    ring
  rw [hzcast] at hz
  have hx : (((k : ℝ) - j) * (2 * Real.pi) / (n : ℝ)) = (z : ℝ) * (2 * Real.pi) := by
    have h2 := mul_right_cancel₀ Complex.I_ne_zero hz
    exact_mod_cast h2
  have hkj : ((k : ℝ) - j) = z * n := by
    field_simp at hx
    nlinarith [hx]
  have hz2 : ((k : ℤ) - j) = z * n := by exact_mod_cast hkj
  have hz0 : z ≠ 0 := by
    intro h0
    rw [h0, zero_mul] at hz2
    have hkj3 : (k : ℤ) = j := by omega
    have hkj4 : j = k := by exact_mod_cast hkj3.symm
    exact hne hkj4
  have hnz : (0 : ℤ) < n := by exact_mod_cast hn
  have habs : (n : ℤ) ≤ |z * n| := by
    rw [abs_mul]
    have h1 : 1 ≤ |z| := Int.one_le_abs (by simpa using hz0)
    have h2 : |(n : ℤ)| = n := abs_of_pos hnz
    nlinarith [abs_nonneg z]
  rw [← hz2] at habs
  have hlt : |(k : ℤ) - j| < n := by
    rw [abs_lt]
    constructor <;> [omega; omega]
  linarith

lemma sum_twiddle_orthogonal (n : ℕ) (hn : 0 < n) (j k : ℕ) (hj : j < n) (hk : k < n) :
    ∑ t ∈ Finset.range n, (twiddle false n ^ j * twiddle true n ^ k) ^ t
      = if j = k then (n : ℂ) else 0 := by
  by_cases hjk : j = k
  · subst hjk
    rw [if_pos rfl]
    have hone : twiddle false n ^ j * twiddle true n ^ j = 1 := by
      rw [twiddle_prod_pow]
      apply exp_ofReal_mul_I_eq_one _ 0
      push_cast
      ring
    simp [hone]
  · rw [if_neg hjk, geom_sum_eq (twiddle_prod_ne_one n j k hn hj hk hjk),
      twiddle_prod_pow_n n j k hn]
    simp

/-- dft_inversion: the inverse Fourier sum of a forward Fourier sum recovers
n times the original entry. -/
lemma dft_inversion (n : ℕ) (hn : 0 < n) (x : ℕ → ℂ) (k : ℕ) (hk : k < n) :
    dftSum n (twiddle true n) (fun j => dftSum n (twiddle false n) x j) k
      = (n : ℂ) * x k := by
  rw [dftSum]
  have hstep : ∀ t ∈ Finset.range n,
      (fun j => dftSum n (twiddle false n) x j) t * twiddle true n ^ (t * k)
        = ∑ j ∈ Finset.range n, x j * (twiddle false n ^ j * twiddle true n ^ k) ^ t := by
    intro t _
    simp only [dftSum, Finset.sum_mul]
    apply Finset.sum_congr rfl
    intro j _
    rw [mul_pow, ← pow_mul, ← pow_mul, mul_comm k t]
    ring
  rw [Finset.sum_congr rfl hstep, Finset.sum_comm]
  have h2 : ∀ j ∈ Finset.range n,
      ∑ t ∈ Finset.range n, x j * (twiddle false n ^ j * twiddle true n ^ k) ^ t
        = if j = k then x j * n else 0 := by
    intro j hj
    rw [← Finset.mul_sum, sum_twiddle_orthogonal n hn j k (Finset.mem_range.mp hj) hk]
    by_cases hjk : j = k
    · rw [if_pos hjk, if_pos hjk]
    · rw [if_neg hjk, if_neg hjk, mul_zero]
  rw [Finset.sum_congr rfl h2, Finset.sum_ite_eq' (Finset.range n) k (fun j => x j * (n : ℂ))]
  rw [if_pos (Finset.mem_range.mpr hk)]
  ring

lemma twiddle_false_conj (n : ℕ) :
    (starRingEnd ℂ) (twiddle false n) = (twiddle false n)⁻¹ := by
  rw [twiddle, ← Complex.exp_conj, ← Complex.exp_neg]
  congr 1
  rw [map_mul, Complex.conj_I, Complex.conj_ofReal]
  ring

lemma twiddle_ne_zero (inverse : Bool) (n : ℕ) : twiddle inverse n ≠ 0 :=
  Complex.exp_ne_zero _

/-- dft_real_hermitian: the Fourier sum of a real-valued sequence is
Hermitian-symmetric. -/
lemma dft_real_hermitian (n : ℕ) (hn : 0 < n) (x : ℕ → ℂ) (hx : ∀ j, (x j).im = 0)
    (i : ℕ) (hi2 : i ≤ n) :
    dftSum n (twiddle false n) x (n - i)
      = (starRingEnd ℂ) (dftSum n (twiddle false n) x i) := by
  rw [dftSum, dftSum, map_sum]
  apply Finset.sum_congr rfl
  intro j _
  rw [map_mul, map_pow, twiddle_false_conj, Complex.conj_eq_iff_im.mpr (hx j)]
  congr 1
  have hsplit : j * i + j * (n - i) = j * n := by
    rw [← Nat.mul_add, Nat.add_sub_cancel' hi2]
  have hpow_n : twiddle false n ^ (j * n) = 1 := by
    rw [show j * n = n * j from mul_comm j n, pow_mul, twiddle_pow_self false n hn, one_pow]
  have hmul : twiddle false n ^ (j * i) * twiddle false n ^ (j * (n - i)) = 1 := by
    rw [← pow_add, hsplit, hpow_n]
  rw [inv_pow]
  exact eq_inv_of_mul_eq_one_right hmul

/-- StageInv: after the stages up to block size 2 ^ s, position b * 2 ^ s + t
holds the t-th entry of the length 2 ^ s Fourier sum of the input subsequence
with stride 2 ^ (bits - s) and offset the bit-reversal of b. -/
def StageInv (inverse : Bool) (bits s : ℕ) (x data : ℕ → ℂ) : Prop :=
  ∀ b t, b < 2 ^ (bits - s) → t < 2 ^ s →
    data (b * 2 ^ s + t)
      = dftSum (2 ^ s) (twiddle inverse (2 ^ s))
          (fun j => x (j * 2 ^ (bits - s) + bitRevIndex (bits - s) b)) t

lemma stagesLoop_succ (inverse : Bool) (n c size : ℕ) (data : ℕ → ℂ) :
    stagesLoop inverse n (c + 1) size data
      = stagesLoop inverse n c (size * 2)
          (blocksLoop ⟨Real.cos ((if inverse then 2 else -2) * Real.pi / (size : ℝ)),
            Real.sin ((if inverse then 2 else -2) * Real.pi / (size : ℝ))⟩
            size (n / size) 0 data) := rfl

/-- stagesLoop_correct: running the remaining butterfly stages carries the
stage invariant from stage s up to the final stage. -/
lemma stagesLoop_correct (inverse : Bool) (bits : ℕ) (x : ℕ → ℂ) :
    ∀ (c s : ℕ) (data : ℕ → ℂ), s + c = bits →
      StageInv inverse bits s x data →
      StageInv inverse bits bits x (stagesLoop inverse (2 ^ bits) c (2 ^ (s + 1)) data) := by
  intro c
  induction c with
  | zero =>
    intro s data hs hinv
    rw [stagesLoop]
    have hsb : s = bits := by omega
    subst hsb
    exact hinv
  | succ c2 ih =>
    intro s data hs hinv
    have hsb : s + 1 ≤ bits := by omega
    rw [stagesLoop_succ]
    rw [show (2 : ℕ) ^ (s + 1) * 2 = 2 ^ (s + 1 + 1) from (pow_succ 2 (s + 1)).symm]
    apply ih (s + 1) _ (by omega)
    rw [stage_wn_eq]
    intro b t hb ht
    have hhalfpos : (0 : ℕ) < 2 ^ s := by positivity
    have hsize : (2 : ℕ) ^ (s + 1) = 2 * 2 ^ s := by rw [pow_succ]; ring
    have hstep : (2 : ℕ) ^ (bits - s) = 2 * 2 ^ (bits - (s + 1)) := by
      rw [show bits - s = (bits - (s + 1)) + 1 from by omega, pow_succ]
      ring
    have hdiv : (2 : ℕ) ^ bits / 2 ^ (s + 1) = 2 ^ (bits - (s + 1)) :=
      Nat.pow_div hsb (by norm_num)
    have hb2 : 2 * b < 2 ^ (bits - s) := by rw [hstep]; omega
    have hb2o : 2 * b + 1 < 2 ^ (bits - s) := by rw [hstep]; omega
    rw [hsize] at ht
    rw [hdiv, hsize]
    obtain ⟨bsA, bsB⟩ := blocksLoop_spec (twiddle inverse (2 * 2 ^ s)) (2 ^ s)
      hhalfpos (2 ^ (bits - (s + 1))) 0 data
    rw [show b * (2 * 2 ^ s) + t = 0 + b * (2 * 2 ^ s) + t from by ring]
    rw [bsA b t hb ht]
    have hmerge := fun t2 => dftSum_merge (2 ^ s) (twiddle inverse (2 * 2 ^ s))
      (twiddle inverse (2 ^ s))
      (twiddle_sq inverse (2 ^ s) hhalfpos)
      (twiddle_pow_half inverse (2 ^ s) hhalfpos)
      (twiddle_pow_self inverse (2 ^ s) hhalfpos)
      (fun j => x (j * 2 ^ (bits - (s + 1)) + bitRevIndex (bits - (s + 1)) b)) t2
    have hEvenEq : ∀ t2 : ℕ, dftSum (2 ^ s) (twiddle inverse (2 ^ s))
        (fun j => x (j * 2 ^ (bits - s) + bitRevIndex (bits - s) (2 * b))) t2
        = dftSum (2 ^ s) (twiddle inverse (2 ^ s))
            (fun j => x (2 * j * 2 ^ (bits - (s + 1))
                + bitRevIndex (bits - (s + 1)) b)) t2 := by
      intro t2
      apply dftSum_congr
      intro j _
      congr 1
      rw [show bits - s = (bits - (s + 1)) + 1 from by omega, bitRevIndex_two_mul, pow_succ]
      ring
    have hOddEq : ∀ t2 : ℕ, dftSum (2 ^ s) (twiddle inverse (2 ^ s))
        (fun j => x (j * 2 ^ (bits - s) + bitRevIndex (bits - s) (2 * b + 1))) t2
        = dftSum (2 ^ s) (twiddle inverse (2 ^ s))
            (fun j => x ((2 * j + 1) * 2 ^ (bits - (s + 1))
                + bitRevIndex (bits - (s + 1)) b)) t2 := by
      intro t2
      apply dftSum_congr
      intro j _
      congr 1
      rw [show bits - s = (bits - (s + 1)) + 1 from by omega,
        bitRevIndex_two_mul_add_one, pow_succ]
      ring
    by_cases hts : t < 2 ^ s
    · rw [if_pos hts]
      rw [show 0 + b * (2 * 2 ^ s) + t = 2 * b * 2 ^ s + t from by ring]
      rw [show 2 * b * 2 ^ s + t + 2 ^ s = (2 * b + 1) * 2 ^ s + t from by ring]
      rw [hinv (2 * b) t hb2 hts, hinv (2 * b + 1) t hb2o hts]
      rw [(hmerge t).1, hEvenEq t, hOddEq t]
    · rw [if_neg hts]
      obtain ⟨t2, rfl⟩ : ∃ t2, t = t2 + 2 ^ s := ⟨t - 2 ^ s, by omega⟩
      have ht2 : t2 < 2 ^ s := by omega
      rw [Nat.add_sub_cancel]
      rw [show 0 + b * (2 * 2 ^ s) + t2 = 2 * b * 2 ^ s + t2 from by ring]
      rw [show 0 + b * (2 * 2 ^ s) + (t2 + 2 ^ s) = (2 * b + 1) * 2 ^ s + t2 from by ring]
      rw [hinv (2 * b) t2 hb2 ht2, hinv (2 * b + 1) t2 hb2o ht2]
      rw [(hmerge t2).2, hEvenEq t2, hOddEq t2]

lemma stageInv_zero (inverse : Bool) (bits : ℕ) (x : ℕ → ℂ) :
    StageInv inverse bits 0 x (bitRevPass bits (2 ^ bits) 0 x) := by
  intro b t hb ht
  rw [pow_zero] at ht
  have ht0 : t = 0 := by omega
  subst ht0
  rw [Nat.sub_zero] at hb ⊢
  rw [pow_zero, mul_one, add_zero, bitRevPass_eval bits x b, if_pos hb, dftSum,
    Finset.sum_range_one]
  simp [bitRevIndex_zero]

lemma stagesLoop_dft (inverse : Bool) (bits : ℕ) (x : ℕ → ℂ) (i : ℕ)
    (hi : i < 2 ^ bits) :
    stagesLoop inverse (2 ^ bits) bits 2 (bitRevPass bits (2 ^ bits) 0 x) i
      = dftSum (2 ^ bits) (twiddle inverse (2 ^ bits)) x i := by
  have hfinal := stagesLoop_correct inverse bits x bits 0
    (bitRevPass bits (2 ^ bits) 0 x) (by omega) (stageInv_zero inverse bits x)
  have hval := hfinal 0 i (by rw [Nat.sub_self]; norm_num) hi
  have hidx0 : 0 * 2 ^ bits + i = i := by omega
  rw [hidx0] at hval
  have hfun : (fun j => x (j * 2 ^ (bits - bits) + bitRevIndex (bits - bits) 0))
      = fun j => x j := by
    funext j
    rw [Nat.sub_self, pow_zero, mul_one, bitRevIndex_zero, add_zero]
  rw [hfun] at hval
  rw [show (2:ℕ) ^ (0 + 1) = 2 from by norm_num] at hval
  refine hval.trans ?_
  apply dftSum_congr
  intro j _
  rfl

/-- The embedded forward fft computes the discrete Fourier sum on inputs
of power-of-two length. -/
lemma fftAlgo_false_eq_dft (bits n : ℕ) (hn : n = 2 ^ bits)
    (hbits : fftBits n = bits) (x : ℕ → ℂ) (i : ℕ) (hi : i < n) :
    fftAlgo false n x i = dftSum n (twiddle false n) x i := by
  subst hn
  have hdef : fftAlgo false (2 ^ bits) x
      = stagesLoop false (2 ^ bits) (fftBits (2 ^ bits)) 2
          (bitRevPass (fftBits (2 ^ bits)) (2 ^ bits) 0 x) := rfl
  rw [hdef, hbits]
  exact stagesLoop_dft false bits x i hi

/-- The embedded inverse fft computes the inverse-twiddle Fourier sum
divided by n, on inputs of power-of-two length. -/
lemma fftAlgo_true_eq_dft (bits n : ℕ) (hn : n = 2 ^ bits)
    (hbits : fftBits n = bits) (x : ℕ → ℂ) (i : ℕ) (hi : i < n) :
    fftAlgo true n x i = dftSum n (twiddle true n) x i / (n : ℂ) := by
  subst hn
  have hdef : fftAlgo true (2 ^ bits) x
      = fun i2 => if i2 < 2 ^ bits
          then stagesLoop true (2 ^ bits) (fftBits (2 ^ bits)) 2
              (bitRevPass (fftBits (2 ^ bits)) (2 ^ bits) 0 x) i2 / ((2 ^ bits : ℕ) : ℂ)
          else stagesLoop true (2 ^ bits) (fftBits (2 ^ bits)) 2
              (bitRevPass (fftBits (2 ^ bits)) (2 ^ bits) 0 x) i2 := rfl
  rw [hdef]
  simp only []
  rw [if_pos hi, hbits, stagesLoop_dft true bits x i hi]

lemma fftBits_512 : fftBits 512 = 9 := by decide

/-- Round trip of the embedded 512-point fft on the Hermitian-extended
spectrum of a real signal: forward transform, keep the first NUM_BINS bins,
rebuild the rest by conjugate symmetry as reconstructAudio does, and the
inverse transform returns the original signal. -/
lemma fft_roundtrip_real (v : ℕ → ℝ) (k : ℕ) (hk : k < FFT_SIZE) :
    fftAlgo true FFT_SIZE (fun i =>
      if i < NUM_BINS
      then ⟨(fftAlgo false FFT_SIZE (fun j => (⟨v j, 0⟩ : ℂ)) i).re,
            (fftAlgo false FFT_SIZE (fun j => (⟨v j, 0⟩ : ℂ)) i).im⟩
      else (starRingEnd ℂ)
        ⟨(fftAlgo false FFT_SIZE (fun j => (⟨v j, 0⟩ : ℂ)) (FFT_SIZE - i)).re,
         (fftAlgo false FFT_SIZE (fun j => (⟨v j, 0⟩ : ℂ)) (FFT_SIZE - i)).im⟩)
      k = ⟨v k, 0⟩ := by
  simp only [FFT_SIZE, NUM_BINS] at *
  have h512 : (512 : ℕ) = 2 ^ 9 := by norm_num
  have hfwd : ∀ i, i < 512 → fftAlgo false 512 (fun j => (⟨v j, 0⟩ : ℂ)) i
      = dftSum 512 (twiddle false 512) (fun j => (⟨v j, 0⟩ : ℂ)) i :=
    fun i hi => fftAlgo_false_eq_dft 9 512 h512 fftBits_512 _ i hi
  have him : ∀ j, ((fun j => (⟨v j, 0⟩ : ℂ)) j).im = 0 := fun _ => rfl
  have hspec : ∀ i, i < 512 →
      (fun i => if i < 257
        then (⟨(fftAlgo false 512 (fun j => (⟨v j, 0⟩ : ℂ)) i).re,
              (fftAlgo false 512 (fun j => (⟨v j, 0⟩ : ℂ)) i).im⟩ : ℂ)
        else (starRingEnd ℂ)
          ⟨(fftAlgo false 512 (fun j => (⟨v j, 0⟩ : ℂ)) (512 - i)).re,
           (fftAlgo false 512 (fun j => (⟨v j, 0⟩ : ℂ)) (512 - i)).im⟩) i
      = dftSum 512 (twiddle false 512) (fun j => (⟨v j, 0⟩ : ℂ)) i := by
    intro i hi
    by_cases hib : i < 257
    · simp only []
      rw [if_pos hib]
      rw [show (⟨(fftAlgo false 512 (fun j => (⟨v j, 0⟩ : ℂ)) i).re,
          (fftAlgo false 512 (fun j => (⟨v j, 0⟩ : ℂ)) i).im⟩ : ℂ)
        = fftAlgo false 512 (fun j => (⟨v j, 0⟩ : ℂ)) i from Complex.ext rfl rfl]
      exact hfwd i hi
    · simp only []
      rw [if_neg hib]
      have h1 : 512 - i < 512 := by omega
      rw [show (⟨(fftAlgo false 512 (fun j => (⟨v j, 0⟩ : ℂ)) (512 - i)).re,
          (fftAlgo false 512 (fun j => (⟨v j, 0⟩ : ℂ)) (512 - i)).im⟩ : ℂ)
        = fftAlgo false 512 (fun j => (⟨v j, 0⟩ : ℂ)) (512 - i) from Complex.ext rfl rfl]
      rw [hfwd (512 - i) h1]
      have hherm := dft_real_hermitian 512 (by norm_num)
        (fun j => (⟨v j, 0⟩ : ℂ)) him (512 - i) (by omega)
      have hidx : 512 - (512 - i) = i := by omega
      rw [hidx] at hherm
      exact hherm.symm
  rw [fftAlgo_true_eq_dft 9 512 h512 fftBits_512 _ k hk]
  rw [dftSum_congr 512 (twiddle true 512) _
    (fun j => dftSum 512 (twiddle false 512) (fun j2 => (⟨v j2, 0⟩ : ℂ)) j) hspec k]
  rw [dft_inversion 512 (by norm_num) (fun j => (⟨v j, 0⟩ : ℂ)) k hk]
  have hne : ((512 : ℕ) : ℂ) ≠ 0 := by norm_num
  rw [mul_comm, mul_div_assoc, div_self hne, mul_one]

/-- The square of the analysis window is the Hann window (the sqrt is
removed exactly because its argument is nonnegative). -/
lemma window_sq (j : ℕ) :
    window j * window j
      = 0.5 * (1 - Real.cos (2 * Real.pi * (j : ℝ) / (FFT_SIZE : ℝ))) := by
  rw [window]
  apply Real.mul_self_sqrt
  have h := Real.cos_le_one (2 * Real.pi * (j : ℝ) / (FFT_SIZE : ℝ))
  nlinarith

/-- Perfect overlap-add: the squared window values at i and i + 256 sum
to one (cos(theta + pi) = -cos theta). -/
lemma window_sq_add (i : ℕ) :
    window i * window i + window (i + 256) * window (i + 256) = 1 := by
  rw [window_sq, window_sq]
  have hcast : ((i + 256 : ℕ) : ℝ) = (i : ℝ) + 256 := by push_cast; ring
  have hF : ((FFT_SIZE : ℕ) : ℝ) = 512 := by norm_num [FFT_SIZE]
  rw [hcast, hF]
  have harg : 2 * Real.pi * ((i : ℝ) + 256) / 512
      = 2 * Real.pi * (i : ℝ) / 512 + Real.pi := by ring
  rw [harg, Real.cos_add_pi]
  ring

lemma stftStep_buffer (s : STFTState) (chunk : ℕ → ℝ) :
    (stftStep s chunk).2.stftBuffer = slideBuf s.stftBuffer chunk := rfl

lemma slideBuf_lo (old c : ℕ → ℝ) (j : ℕ) (hj : j < FFT_SIZE - HOP_SIZE) :
    slideBuf old c j = old (j + HOP_SIZE) := by
  simp only [slideBuf]
  rw [if_pos hj]

lemma slideBuf_hi (old c : ℕ → ℝ) (j : ℕ) (hj : ¬ j < FFT_SIZE - HOP_SIZE) :
    slideBuf old c j = c (j - (FFT_SIZE - HOP_SIZE)) := by
  simp only [slideBuf]
  rw [if_neg hj]

/-- One stftStep emits overlap-add of the previous accumulator with the
windowed round-tripped analysis frame: since the inverse fft undoes the
forward fft exactly, output sample i is overlap(i) + buf(i) * w(i)^2. -/
lemma stftStep_out (s : STFTState) (chunk : ℕ → ℝ) (i : ℕ) (hi : i < FFT_SIZE) :
    (stftStep s chunk).1 i
      = s.overlapBuffer i
        + slideBuf s.stftBuffer chunk i * window i * window i := by
  have hround := fft_roundtrip_real
    (fun j => slideBuf s.stftBuffer chunk j * window j) i hi
  show s.overlapBuffer i
      + (fftAlgo true FFT_SIZE (fun i2 =>
          if i2 < NUM_BINS
          then ⟨(fftAlgo false FFT_SIZE
                  (fun j => (⟨slideBuf s.stftBuffer chunk j * window j, 0⟩ : ℂ)) i2).re,
                (fftAlgo false FFT_SIZE
                  (fun j => (⟨slideBuf s.stftBuffer chunk j * window j, 0⟩ : ℂ)) i2).im⟩
          else (starRingEnd ℂ)
            ⟨(fftAlgo false FFT_SIZE
                (fun j => (⟨slideBuf s.stftBuffer chunk j * window j, 0⟩ : ℂ))
                (FFT_SIZE - i2)).re,
             (fftAlgo false FFT_SIZE
                (fun j => (⟨slideBuf s.stftBuffer chunk j * window j, 0⟩ : ℂ))
                (FFT_SIZE - i2)).im⟩) i).re
        * window i
      = s.overlapBuffer i + slideBuf s.stftBuffer chunk i * window i * window i
  rw [hround]

lemma stftStep_overlap (s : STFTState) (chunk : ℕ → ℝ) (i : ℕ) :
    (stftStep s chunk).2.overlapBuffer i
      = if i < FFT_SIZE - HOP_SIZE then (stftStep s chunk).1 (i + HOP_SIZE) else 0 := rfl

/-- From the second state on, the overlap accumulator vanishes beyond the
first FFT_SIZE - HOP_SIZE entries (and the reset state is all zero). -/
lemma stftRun_overlap_hi (chunks : ℕ → ℕ → ℝ) (k j : ℕ)
    (hj : FFT_SIZE - HOP_SIZE ≤ j) :
    (stftRun chunks k).overlapBuffer j = 0 := by
  cases k with
  | zero => rfl
  | succ k2 =>
    simp only [stftRun]
    rw [stftStep_overlap, if_neg (not_lt.mpr hj)]

lemma stftRun_buffer_succ (chunks : ℕ → ℕ → ℝ) (k : ℕ) :
    (stftRun chunks (k + 1)).stftBuffer
      = slideBuf (stftRun chunks k).stftBuffer (chunks (k + 1)) := by
  simp only [stftRun]
  rw [stftStep_buffer]

lemma stftRun_overlap_succ (chunks : ℕ → ℕ → ℝ) (k i : ℕ)
    (hi : i < FFT_SIZE - HOP_SIZE) (hiF : i + HOP_SIZE < FFT_SIZE) :
    (stftRun chunks (k + 1)).overlapBuffer i
      = (stftRun chunks k).overlapBuffer (i + HOP_SIZE)
        + slideBuf (stftRun chunks k).stftBuffer (chunks (k + 1)) (i + HOP_SIZE)
          * window (i + HOP_SIZE) * window (i + HOP_SIZE) := by
  simp only [stftRun]
  rw [stftStep_overlap, if_pos hi, stftStep_out _ _ _ hiF]

lemma stftOut_eval (chunks : ℕ → ℕ → ℝ) (k i : ℕ) (hi : i < FFT_SIZE) :
    stftOut chunks k i
      = (stftRun chunks (k - 1)).overlapBuffer i
        + slideBuf (stftRun chunks (k - 1)).stftBuffer (chunks k) i
          * window i * window i := by
  rw [stftOut, stftStep_out _ _ _ hi]

/-- C1: STFT/ISTFT round trip. With FFT_SIZE = 512, HOP_SIZE = 256 and the
square-root-Hann window (whose square is Hann and sums to 1 at 50 percent
overlap), for every sequence of 256-sample chunks fed in order through
computeSTFT and reconstructAudio with the bins passed through unchanged,
the k-th reconstructed chunk for k >= 2 equals the (k-1)-th input chunk
exactly under real arithmetic: the pipeline reproduces its input delayed
by exactly one hop. -/
theorem C1_stft_roundtrip (chunks : ℕ → ℕ → ℝ) (k i : ℕ)
    (hk : 2 ≤ k) (hi : i < HOP_SIZE) :
    stftOut chunks k i = chunks (k - 1) i := by
  have hH : HOP_SIZE = 256 := rfl
  have hFH : FFT_SIZE - HOP_SIZE = 256 := rfl
  have hF : FFT_SIZE = 512 := rfl
  obtain ⟨k2, rfl⟩ : ∃ k2, k = k2 + 2 := ⟨k - 2, by omega⟩
  have hk1 : k2 + 2 - 1 = k2 + 1 := by omega
  rw [stftOut_eval chunks (k2 + 2) i (by omega), hk1]
  rw [stftRun_overlap_succ chunks k2 i (by omega) (by omega)]
  rw [stftRun_overlap_hi chunks k2 (i + HOP_SIZE) (by omega)]
  rw [slideBuf_hi _ _ (i + HOP_SIZE) (by omega)]
  rw [slideBuf_lo _ _ i (by omega)]
  rw [stftRun_buffer_succ chunks k2]
  rw [slideBuf_hi _ _ (i + HOP_SIZE) (by omega)]
  have hidx : (i + HOP_SIZE) - (FFT_SIZE - HOP_SIZE) = i := by omega
  rw [hidx, hH]
  linear_combination chunks (k2 + 1) i * window_sq_add i

/-- Witness: the round-trip theorem applied to the all-zero chunk stream at
k = 2, i = 0. -/
theorem C1_stft_roundtrip_witness :
    2 ≤ 2 ∧ 0 < HOP_SIZE ∧ stftOut (fun _ _ => (0 : ℝ)) 2 0 = 0 :=
  ⟨by decide, by decide, C1_stft_roundtrip (fun _ _ => (0 : ℝ)) 2 0 (by decide) (by decide)⟩

end Poise
